import Mathlib

/-!
Verification development for the disk I/O subsystem (`src/arch/linux/disk.cc`):
the disk request pipeline (stats → conflict resolution → backend) built by
`linux_templated_disk_manager_t`, and the `linux_file_t` file abstraction
(alignment checking, size tracking and growth, blocking I/O retry loop,
constructor open-flag logic).

Code embedded from the source file is translated definition-by-definition.
Components that the source only wires together (`conflict_resolving.hpp`,
`stats.hpp`, the backends) and constants/helpers from headers not present
(`DEVICE_BLOCK_SIZE` from `config/args.hpp`, `ceil_aligned` from `utils2.hpp`)
are modelled from the specification; each such definition says so in its doc
comment.

Machine integers (`size_t`) are modelled as `Nat` with explicit reduction
modulo `2^64` exactly where the C++ code performs wrapping arithmetic.
-/

namespace Disk

/-! ## The disk request pipeline -/

/-- One pending I/O request, as built by
`linux_templated_disk_manager_t::submit_write`/`submit_read`
(`action_t`: kind, fd, buffer, count, offset; the callback is identified by
`ident`, which also serves as allocation identity). -/
structure Action where
  fd : Nat
  offset : Nat
  length : Nat
  isWrite : Bool
  ident : Nat
deriving DecidableEq

/-- Two actions conflict when they are on the same file descriptor and their
byte ranges `[offset, offset+length)` overlap.
Modelled from the spec: `conflict_resolving.hpp` is not in src; per §4.3 two
Actions conflict solely by (fd, offset, length) range overlap, for any kinds. -/
def overlaps (a b : Action) : Bool :=
  a.fd == b.fd && decide (a.offset < b.offset + b.length) &&
    decide (b.offset < a.offset + a.length)

/-- Does `a` conflict with any action in the pool `l`. -/
def conflictsAny (a : Action) (l : List Action) : Bool :=
  l.any (fun x => overlaps a x)

/-- Observable pipeline events: an Action forwarded to the Backend
(`backend.submit`), the caller's completion callback
(`a2->cb->on_io_complete()` in `linux_templated_disk_manager_t::done`), and
the deallocation of the Action (`delete a2`, same function). -/
inductive Out where
  | bsub (a : Action)
  | cb (a : Action)
  | free (a : Action)
deriving DecidableEq

/-- The action an output event refers to. -/
def Out.actOf : Out → Action
  | .bsub a => a
  | .cb a => a
  | .free a => a

/-- Whether an output event touches the given action. -/
def touches (o : Out) (a : Action) : Bool :=
  decide (o.actOf = a)

/-- Conflict-resolver state: Actions currently forwarded to the Backend and
not yet completed (`inflight`), and Actions held back behind a conflicting
range, in FIFO submission order (`queue`).
Modelled from the spec: `conflict_resolving.hpp` is not in src; §4.3. -/
structure CRState where
  inflight : List Action
  queue : List Action
deriving DecidableEq

/-- The empty pipeline state. -/
def CRState.init : CRState := ⟨[], []⟩

/-- The conflict-resolving stage's submit.
Modelled from the spec: if the incoming Action's range does not overlap any
currently outstanding Action on the same fd, forward it immediately to the
Backend; otherwise hold it in the pending queue (FIFO). -/
def submitStep (s : CRState) (a : Action) : CRState × List Out :=
  if conflictsAny a (s.inflight ++ s.queue) then
    ({ s with queue := s.queue ++ [a] }, [])
  else
    ({ s with inflight := s.inflight ++ [a] }, [.bsub a])

/-- Scan the pending queue in FIFO order, releasing to the Backend every
queued Action that no longer conflicts with any in-flight Action nor with an
earlier Action that remains queued. Returns (new inflight, new queue,
released actions in order).
Modelled from the spec: `done(Action)` releases whichever queued actions no
longer overlap any still-in-flight range, preserving submission order. -/
def drain (infl kept : List Action) : List Action → List Action × List Action × List Action
  | [] => (infl, kept, [])
  | q :: qs =>
    if conflictsAny q (infl ++ kept) then
      drain infl (kept ++ [q]) qs
    else
      let r := drain (infl ++ [q]) kept qs
      (r.1, r.2.1, q :: r.2.2)

/-- Completion handling of the composed pipeline: the completed Action's range is
no longer in flight; the completion travels up through the transparent stats
stage to `linux_templated_disk_manager_t::done`, which invokes the caller's
callback and deletes the Action; queued Actions freed of conflicts are
released to the Backend in FIFO order. -/
def doneStep (s : CRState) (a : Action) : CRState × List Out :=
  let infl := s.inflight.erase a
  let r := drain infl [] s.queue
  ({ inflight := r.1, queue := r.2.1 }, .cb a :: .free a :: r.2.2.map .bsub)

/-- External events driving the pipeline: a `submit_read`/`submit_write`
call, or an OS completion delivered by the Backend for an in-flight Action. -/
inductive Ev where
  | sub (a : Action)
  | comp (a : Action)
deriving DecidableEq

/-- One step of the pipeline. A completion for an action that is not in
flight is ignored (the Backend only ever completes in-flight actions). -/
def step (s : CRState) : Ev → CRState × List Out
  | .sub a => submitStep s a
  | .comp a => if a ∈ s.inflight then doneStep s a else (s, [])

/-- Run the pipeline over a list of events, collecting all outputs. -/
def run (s : CRState) : List Ev → CRState × List Out
  | [] => (s, [])
  | e :: es =>
    let p := step s e
    let q := run p.1 es
    (q.1, p.2 ++ q.2)

/-- The actions submitted in an event trace, in submission order. -/
def subsOf : List Ev → List Action
  | [] => []
  | .sub a :: es => a :: subsOf es
  | .comp _ :: es => subsOf es

/-- The actions whose completion callback appears in an output trace, in
callback order. -/
def cbListOf (l : List Out) : List Action :=
  l.filterMap fun o =>
    match o with
    | .cb x => some x
    | _ => none

/-- Number of outstanding actions. -/
def stateSize (s : CRState) : Nat :=
  s.inflight.length + s.queue.length

/-- Drive the pipeline to quiescence: repeatedly complete the first in-flight
action until nothing is outstanding. Fuel-indexed; `stateSize` fuel always
suffices. -/
def drainAllFuel : Nat → CRState → List Out
  | 0, _ => []
  | fuel + 1, s =>
    match s.inflight with
    | [] => []
    | x :: _ =>
      let p := doneStep s x
      p.2 ++ drainAllFuel fuel p.1

/-- Submit a batch of actions through the pipeline, then let the Backend
complete every outstanding action. -/
def runAll (as : List Action) : List Out :=
  let p := run CRState.init (as.map .sub)
  p.2 ++ drainAllFuel (stateSize p.1) p.1

/-! ## The file abstraction -/

/-- Device block size.
Modelled from the spec: the constant comes from `config/args.hpp`, which is
not in src; the spec's scenarios (§8) use 4096-byte alignment. -/
def DEVICE_BLOCK_SIZE : Nat := 4096

/-- The modulus of `size_t` arithmetic on 64-bit Linux. -/
def U64 : Nat := 2 ^ 64

/-- Round `x` up to the next multiple of `a`.
Modelled from the spec: `ceil_aligned` comes from `utils2.hpp`, which is not
in src; per §4.4 of the spec it rounds up to the alignment multiple. -/
def ceil_aligned (x a : Nat) : Nat :=
  (x + a - 1) / a * a

/-- The check `linux_file_t::verify`: `rassert(buf)`,
`rassert(offset + length <= file_size)` (a `size_t` addition, hence reduced
mod `2^64`), and block-size alignment of the buffer address, the offset and
the length. Returns whether all assertions pass. -/
def verifyOk (fileSize off len buf : Nat) : Bool :=
  (buf != 0) &&
  decide ((off + len) % U64 ≤ fileSize) &&
  (buf % DEVICE_BLOCK_SIZE == 0) &&
  (off % DEVICE_BLOCK_SIZE == 0) &&
  (len % DEVICE_BLOCK_SIZE == 0)

/-- The `linux_file_t` state that the size/IO operations read and write:
whether the target is a block device and the tracked `file_size`. -/
structure FileT where
  isBlock : Bool
  fileSize : Nat
deriving DecidableEq

/-- The operation `linux_file_t::set_size`: asserts the file is not a block device, then
ftruncates to exactly `n` and records `file_size = n`. `none` models the
failed assertion. -/
def set_size (f : FileT) (n : Nat) : Option FileT :=
  if f.isBlock then none else some { f with fileSize := n }

/-- The operation `linux_file_t::set_size_at_least`: on a block device, assert the current
size already covers `n`; on a regular file, grow in large chunks — if
`file_size < n`, `set_size(ceil_aligned(n, DEVICE_BLOCK_SIZE * 128))`. -/
def set_size_at_least (f : FileT) (n : Nat) : Option FileT :=
  if f.isBlock then
    if f.fileSize ≥ n then some f else none
  else
    if f.fileSize < n then set_size f (ceil_aligned n (DEVICE_BLOCK_SIZE * 128))
    else some f

/-- The `linux_file_t` operations that touch file state. I/O operations
carry their offset, length and buffer address. -/
inductive FileOp where
  | setSize (n : Nat)
  | setSizeAtLeast (n : Nat)
  | readAsync (off len buf : Nat)
  | writeAsync (off len buf : Nat)
  | readBlocking (off len buf : Nat)
  | writeBlocking (off len buf : Nat)
deriving DecidableEq

/-- Effect of one `linux_file_t` operation on the file state. `none` models
a failed assertion; for the four I/O operations a `some` result means
`verify` passed and the request went on to the DiskManager (async) or to the
positioned system call (blocking); none of them changes the file state. -/
def FileT.step (f : FileT) : FileOp → Option FileT
  | .setSize n => set_size f n
  | .setSizeAtLeast n => set_size_at_least f n
  | .readAsync off len buf
  | .writeAsync off len buf
  | .readBlocking off len buf
  | .writeBlocking off len buf =>
    if verifyOk f.fileSize off len buf then some f else none

/-- The offset, length and buffer address of an I/O operation, when the
operation is one of the four read/write entry points. -/
def ioArgs : FileOp → Option (Nat × Nat × Nat)
  | .readAsync off len buf
  | .writeAsync off len buf
  | .readBlocking off len buf
  | .writeBlocking off len buf => some (off, len, buf)
  | _ => none

/-- Outcome of one positioned system call (`pread`/`pwrite`): `ok n` is a
return of `n ≥ 0` bytes, `err true` is `-1` with `errno == EINTR`,
`err false` is `-1` with any other errno. -/
inductive SysRes where
  | ok (n : Nat)
  | err (eintr : Bool)
deriving DecidableEq

/-- Result of the blocking-I/O retry loop: `returned n` means the final call
transferred `n` bytes and `rassert(size_t(res) == length)` passed; `fatal`
means that assertion failed; `stuck` means the scripted outcomes ran out
while the loop was still retrying. -/
inductive BlockRes where
  | returned (n : Nat)
  | fatal
  | stuck
deriving DecidableEq

/-- The `tryagain:` loop of `linux_file_t::read_blocking` /
`write_blocking`: reissue the call while it fails with `EINTR`; afterwards
`rassert(size_t(res) == length)` — on error `res` is `-1`, whose `size_t`
cast is `2^64 - 1`. The list scripts the successive system-call outcomes. -/
def blockingLoop (len : Nat) : List SysRes → BlockRes
  | [] => .stuck
  | .err true :: rest => blockingLoop len rest
  | .err false :: _ => if U64 - 1 = len then .returned 0 else .fatal
  | .ok n :: _ => if n % U64 = len then .returned n else .fatal

/-- The operation `linux_file_t::read_blocking`: `verify` then the
retry loop around `pread`. `none` models a failed `verify` assertion. -/
def read_blocking (f : FileT) (off len buf : Nat) (script : List SysRes) :
    Option BlockRes :=
  if verifyOk f.fileSize off len buf then some (blockingLoop len script) else none

/-- The operation `linux_file_t::write_blocking`: `verify` then the
retry loop around `pwrite`. `none` models a failed `verify` assertion. -/
def write_blocking (f : FileT) (off len buf : Nat) (script : List SysRes) :
    Option BlockRes :=
  if verifyOk f.fileSize off len buf then some (blockingLoop len script) else none

/-! ## The file constructor -/

/-- The access-mode bits passed to the `linux_file_t` constructor
(`mode_create`, `mode_read`, `mode_write`). -/
structure Mode where
  create : Bool
  read : Bool
  write : Bool
deriving DecidableEq

/-- The open flags the constructor assembles. -/
structure OpenFlags where
  creat : Bool
  direct : Bool
  largefile : Bool
  rdwr : Bool
  wronly : Bool
  rdonly : Bool
  noatime : Bool
deriving DecidableEq

/-- Lines 104–115 of the constructor: `O_CREAT | (direct? O_DIRECT) |
O_LARGEFILE`, then exactly one of `O_RDWR`/`O_WRONLY`/`O_RDONLY` from the
mode bits — `crash("Bad file access mode.")` (modelled as `none`) when
neither read nor write is requested — and `O_NOATIME` for non-block files. -/
def mkFlags (mode : Mode) (isReallyDirect isBlock : Bool) : Option OpenFlags :=
  if mode.write && mode.read then
    some ⟨true, isReallyDirect, true, true, false, false, !isBlock⟩
  else if mode.write then
    some ⟨true, isReallyDirect, true, false, true, false, !isBlock⟩
  else if mode.read then
    some ⟨true, isReallyDirect, true, false, false, true, !isBlock⟩
  else
    none

/-- What `stat64` reports about the path, when it exists. -/
structure StatInfo where
  isBlock : Bool
deriving DecidableEq

/-- The OS facts the constructor consults: the `stat64` result (`none` is
`ENOENT`), whether the path still exists when `open` runs (these differ only
in a stat-to-open race), the block device's size as reported by
`BLKGETSIZE64`, and an existing regular file's size as reported by seeking
to its end. -/
structure SysWorld where
  statResult : Option StatInfo
  existsAtOpen : Bool
  blockDevSize : Nat
  regFileSize : Nat
deriving DecidableEq

/-- Outcome of running the `linux_file_t` constructor: early return with
`file_exists = false`; `crash("Bad file access mode.")`;
`fail_due_to_user_error` because `open` failed; or an open file with its
flags, the resulting state, and whether `open` created the file afresh. -/
inductive CtorResult where
  | notExists
  | crashed
  | openFailed
  | opened (flags : OpenFlags) (f : FileT) (fileExists createdNew : Bool)
deriving DecidableEq

/-- The open phase of the `linux_file_t` constructor, reached once the
existence check has passed (the path existed at `stat` time, classified with
the given `isBlock`, or creation was requested, in which case
`isBlock = false`): build the open flags (crashing on a bad access mode),
`open(path, flags, 0644)` — which fails only if the path is absent at open
time and `O_CREAT` is missing, and creates the file afresh when it is absent
and `O_CREAT` is present — then determine the size: `BLKGETSIZE64` for a
block device, seek-to-end for a regular file (`0` when `open` just created
it). -/
def fileCtorOpen (w : SysWorld) (mode : Mode) (isReallyDirect isBlock : Bool) :
    CtorResult :=
  match mkFlags mode isReallyDirect isBlock with
  | none => .crashed
  | some flags =>
    if !w.existsAtOpen && !flags.creat then
      .openFailed
    else
      let createdNew := !w.existsAtOpen && flags.creat
      let size :=
        if isBlock then w.blockDevSize
        else if createdNew then 0 else w.regFileSize
      .opened flags ⟨isBlock, size⟩ true createdNew

/-- The `linux_file_t` constructor: stat the path; if absent and
`mode_create` was not given, set `file_exists = false` and return before
opening anything; otherwise proceed to the open phase, with block-device
classification from the stat result (`is_block = false` for a path being
created). -/
def fileCtor (w : SysWorld) (mode : Mode) (isReallyDirect : Bool) : CtorResult :=
  match w.statResult, mode.create with
  | none, false => .notExists
  | none, true => fileCtorOpen w mode isReallyDirect false
  | some st, _ => fileCtorOpen w mode isReallyDirect st.isBlock

/-! ## Helper lemmas -/

theorem le_ceil_aligned (n a : Nat) (ha : 0 < a) : n ≤ ceil_aligned n a := by
  rcases Nat.eq_zero_or_pos n with rfl | hn
  · exact Nat.zero_le _
  · unfold ceil_aligned
    have hrw : n + a - 1 = n - 1 + a := by omega
    rw [hrw, Nat.add_div_right _ ha, Nat.add_mul, Nat.one_mul, Nat.mul_comm]
    have hdm := Nat.div_add_mod (n - 1) a
    have hml : (n - 1) % a < a := Nat.mod_lt _ ha
    omega

theorem verifyOk_iff (fs off len buf : Nat) :
    verifyOk fs off len buf = true ↔
      buf ≠ 0 ∧ (off + len) % U64 ≤ fs ∧ buf % DEVICE_BLOCK_SIZE = 0 ∧
        off % DEVICE_BLOCK_SIZE = 0 ∧ len % DEVICE_BLOCK_SIZE = 0 := by
  simp only [verifyOk, Bool.and_eq_true, bne_iff_ne, ne_eq, decide_eq_true_eq,
    Nat.beq_eq_true_eq]
  tauto

/-! ## Claims about the file abstraction -/

/-- C4: on a regular file, `set_size_at_least(n)` never decreases the size,
afterwards `size ≥ n` holds, and when the prior size was below `n` the new
size is exactly `n` rounded up to the growth chunk
`DEVICE_BLOCK_SIZE * 128`, a multiple of the device block size. -/
theorem set_size_at_least_regular_growth (f : FileT) (n : Nat)
    (h : f.isBlock = false) :
    (set_size_at_least f n).isSome = true ∧
    (∀ f', set_size_at_least f n = some f' →
      f'.isBlock = false ∧ f.fileSize ≤ f'.fileSize ∧ n ≤ f'.fileSize ∧
      (f.fileSize < n → f'.fileSize = ceil_aligned n (DEVICE_BLOCK_SIZE * 128)) ∧
      (n ≤ f.fileSize → f' = f)) ∧
    DEVICE_BLOCK_SIZE ∣ DEVICE_BLOCK_SIZE * 128 := by
  obtain ⟨ib, fs⟩ := f
  cases h
  have hchunk := le_ceil_aligned n (DEVICE_BLOCK_SIZE * 128) (by decide)
  by_cases hlt : fs < n
  · refine ⟨by simp [set_size_at_least, set_size, hlt], ?_, ⟨128, rfl⟩⟩
    intro f' hf'
    simp [set_size_at_least, set_size, hlt] at hf'
    subst hf'
    refine ⟨rfl, ?_, ?_, fun _ => rfl,
      fun hc => absurd (show n ≤ fs from hc) (by omega)⟩
    · show fs ≤ ceil_aligned n (DEVICE_BLOCK_SIZE * 128)
      omega
    · exact hchunk
  · refine ⟨by simp [set_size_at_least, hlt], ?_, ⟨128, rfl⟩⟩
    intro f' hf'
    simp [set_size_at_least, hlt] at hf'
    subst hf'
    refine ⟨rfl, Nat.le_refl _, ?_, fun hc => absurd hc hlt, fun _ => rfl⟩
    show n ≤ fs
    omega

/-- Witness for C4 at a regular file of size 0 grown to cover 5000 bytes. -/
theorem set_size_at_least_regular_growth_witness :
    FileT.fileSize ⟨false, 524288⟩ = ceil_aligned 5000 (DEVICE_BLOCK_SIZE * 128) ∧
    (set_size_at_least ⟨false, 0⟩ 5000).isSome = true :=
  ⟨(((set_size_at_least_regular_growth ⟨false, 0⟩ 5000 rfl).2.1 ⟨false, 524288⟩
      (by decide)).2.2.2.1 (by decide)),
   (set_size_at_least_regular_growth ⟨false, 0⟩ 5000 rfl).1⟩

/-- C5: on a block device, `set_size_at_least(n)` never changes any file
state, it succeeds exactly when the current size already covers `n`, and
fails the assertion otherwise. -/
theorem set_size_at_least_block_frame (f : FileT) (n : Nat)
    (h : f.isBlock = true) :
    (∀ f', set_size_at_least f n = some f' → f' = f) ∧
    (n ≤ f.fileSize → set_size_at_least f n = some f) ∧
    (f.fileSize < n → set_size_at_least f n = none) := by
  refine ⟨?_, ?_, ?_⟩
  · intro f' hf'
    by_cases hge : n ≤ f.fileSize
    · simp [set_size_at_least, h, hge] at hf'
      exact hf'.symm
    · simp [set_size_at_least, h, hge] at hf'
  · intro hge
    simp [set_size_at_least, h, hge]
  · intro hlt
    simp [set_size_at_least, h, Nat.not_le.2 hlt]

/-- Witness for C5 at a block device of size 8192 asked to cover 4096. -/
theorem set_size_at_least_block_frame_witness :
    set_size_at_least ⟨true, 8192⟩ 4096 = some ⟨true, 8192⟩ :=
  (set_size_at_least_block_frame ⟨true, 8192⟩ 4096 rfl).2.1 (by decide)

/-- C6 counterexample: the claim that no `linux_file_t` operation ever
shrinks a regular file's size is false — `set_size` truncates to exactly the
requested size, here from 8192 down to 0. -/
theorem file_size_monotone_cex :
    ¬ (∀ (f f' : FileT) (op : FileOp), f.isBlock = false →
        FileT.step f op = some f' → f.fileSize ≤ f'.fileSize) := by
  intro h
  have := h ⟨false, 8192⟩ ⟨false, 0⟩ (.setSize 0) rfl (by decide)
  exact absurd this (by decide)

/-- C6 amended: every `linux_file_t` operation other than an explicit
`set_size` call leaves the size monotonically non-decreasing (this includes
`set_size_at_least` and all four I/O entry points); only `set_size` can
shrink a regular file. -/
theorem file_size_monotone_except_set_size (f f' : FileT) (op : FileOp)
    (hop : ∀ n, op ≠ FileOp.setSize n) (h : FileT.step f op = some f') :
    f.fileSize ≤ f'.fileSize := by
  cases op with
  | setSize n => exact absurd rfl (hop n)
  | setSizeAtLeast n =>
    simp only [FileT.step] at h
    by_cases hb : f.isBlock = true
    · rcases (set_size_at_least_block_frame f n hb).1 f' h with rfl
      exact Nat.le_refl _
    · rcases ((set_size_at_least_regular_growth f n
        (Bool.not_eq_true _ ▸ hb)).2.1 f' h) with ⟨-, h2, -⟩
      exact h2
  | readAsync off len buf =>
    simp only [FileT.step] at h
    split at h
    · cases h; exact Nat.le_refl _
    · cases h
  | writeAsync off len buf =>
    simp only [FileT.step] at h
    split at h
    · cases h; exact Nat.le_refl _
    · cases h
  | readBlocking off len buf =>
    simp only [FileT.step] at h
    split at h
    · cases h; exact Nat.le_refl _
    · cases h
  | writeBlocking off len buf =>
    simp only [FileT.step] at h
    split at h
    · cases h; exact Nat.le_refl _
    · cases h

/-- Witness for the amended C6 at a `set_size_at_least` growth step. -/
theorem file_size_monotone_except_set_size_witness :
    FileT.fileSize ⟨false, 0⟩ ≤ FileT.fileSize ⟨false, 524288⟩ :=
  file_size_monotone_except_set_size ⟨false, 0⟩ ⟨false, 524288⟩
    (.setSizeAtLeast 5000) (fun n h => FileOp.noConfusion h) (by decide)



/-- C3 counterexample: the claim that any request with `offset + length`
exceeding the file's known size fails the assertion is false — `verify`
computes `offset + length` in `size_t` arithmetic, so at
`offset = 2^64 - 4096`, `length = 4096` the sum wraps around to
`0 ≤ file_size` and the (block-aligned) request is passed on to the
DiskManager although it is out of bounds. -/
theorem verify_bounds_overflow_cex :
    U64 - 4096 + 4096 > 0 ∧
    FileT.step ⟨false, 0⟩ (FileOp.readAsync (U64 - 4096) 4096 4096) =
      some ⟨false, 0⟩ := by
  constructor
  · show 2 ^ 64 - 4096 + 4096 > 0
    simp
  · decide

/-- C3 amended: for each of `read_async`, `write_async`, `read_blocking`
and `write_blocking`, the operation fails via assertion before any
DiskManager/Backend interaction if and only if the buffer is null, or
`offset + length` computed in `size_t` (mod `2^64`) arithmetic exceeds the
file's known size, or the buffer address, the offset or the length is not a
multiple of the device block size; under the complementary precondition the
assertion branch is unreachable and the request goes forward. -/
theorem verify_gate (f : FileT) (op : FileOp) (off len buf : Nat)
    (hargs : ioArgs op = some (off, len, buf)) :
    (FileT.step f op = some f ↔
      (buf ≠ 0 ∧ (off + len) % U64 ≤ f.fileSize ∧ buf % DEVICE_BLOCK_SIZE = 0 ∧
        off % DEVICE_BLOCK_SIZE = 0 ∧ len % DEVICE_BLOCK_SIZE = 0)) ∧
    (FileT.step f op = none ↔
      ¬(buf ≠ 0 ∧ (off + len) % U64 ≤ f.fileSize ∧ buf % DEVICE_BLOCK_SIZE = 0 ∧
        off % DEVICE_BLOCK_SIZE = 0 ∧ len % DEVICE_BLOCK_SIZE = 0)) := by
  have main : ∀ g : Option FileT,
      g = (if verifyOk f.fileSize off len buf then some f else none) →
      (g = some f ↔
        (buf ≠ 0 ∧ (off + len) % U64 ≤ f.fileSize ∧ buf % DEVICE_BLOCK_SIZE = 0 ∧
          off % DEVICE_BLOCK_SIZE = 0 ∧ len % DEVICE_BLOCK_SIZE = 0)) ∧
      (g = none ↔
        ¬(buf ≠ 0 ∧ (off + len) % U64 ≤ f.fileSize ∧ buf % DEVICE_BLOCK_SIZE = 0 ∧
          off % DEVICE_BLOCK_SIZE = 0 ∧ len % DEVICE_BLOCK_SIZE = 0)) := by
    intro g hg
    by_cases hv : verifyOk f.fileSize off len buf = true
    · rw [if_pos hv] at hg
      subst hg
      constructor
      · exact ⟨fun _ => (verifyOk_iff _ _ _ _).1 hv, fun _ => rfl⟩
      · simp only [reduceCtorEq, false_iff, not_not]
        exact (verifyOk_iff _ _ _ _).1 hv
    · rw [if_neg hv] at hg
      subst hg
      constructor
      · simp only [reduceCtorEq, false_iff]
        exact fun hc => hv ((verifyOk_iff _ _ _ _).2 hc)
      · simp only [true_iff]
        exact fun hc => hv ((verifyOk_iff _ _ _ _).2 hc)
  cases op <;>
    simp only [ioArgs, Option.some.injEq, Prod.mk.injEq, reduceCtorEq] at hargs <;>
    obtain ⟨rfl, rfl, rfl⟩ := hargs <;>
    exact main _ rfl

/-- Witness for the amended C3: an aligned in-bounds read goes through, and
a misaligned offset fails the assertion before anything is submitted. -/
theorem verify_gate_witness :
    FileT.step ⟨false, 8192⟩ (FileOp.readAsync 0 4096 4096) =
      some ⟨false, 8192⟩ ∧
    FileT.step ⟨false, 8192⟩ (FileOp.readAsync 1 4096 4096) = none :=
  ⟨((verify_gate ⟨false, 8192⟩ (FileOp.readAsync 0 4096 4096) 0 4096 4096
      rfl).1).2 ⟨by decide, by decide, by decide, by decide, by decide⟩,
   ((verify_gate ⟨false, 8192⟩ (FileOp.readAsync 1 4096 4096) 1 4096 4096
      rfl).2).2 (fun hc => absurd hc.2.2.2.1 (by decide))⟩

/-! ## Claims about the constructor -/

theorem mkFlags_creat (mode : Mode) (d ib : Bool) (fl : OpenFlags)
    (h : mkFlags mode d ib = some fl) : fl.creat = true := by
  obtain ⟨mc, mr, mw⟩ := mode
  cases mr <;> cases mw <;>
    simp only [mkFlags, Bool.and_self, Bool.and_false, Bool.false_and,
      Bool.and_true, Bool.true_and, Bool.false_eq_true, Bool.true_eq_false,
      if_true, if_false, Option.some.injEq, reduceCtorEq, ite_true,
      ite_false] at h <;>
    subst h <;> rfl

theorem fileCtorOpen_of_flags (w : SysWorld) (mode : Mode) (d ib : Bool)
    (fl : OpenFlags) (hfl : mkFlags mode d ib = some fl) :
    fileCtorOpen w mode d ib =
      CtorResult.opened fl
        ⟨ib, if ib then w.blockDevSize
             else if !w.existsAtOpen then 0 else w.regFileSize⟩
        true (!w.existsAtOpen) := by
  have hc : fl.creat = true := mkFlags_creat mode d ib fl hfl
  unfold fileCtorOpen
  rw [hfl]
  simp only [hc, Bool.not_true, Bool.and_false, Bool.false_eq_true,
    if_false, Bool.and_true]

theorem fileCtorOpen_crashed (w : SysWorld) (mode : Mode) (d ib : Bool)
    (hfl : mkFlags mode d ib = none) :
    fileCtorOpen w mode d ib = CtorResult.crashed := by
  unfold fileCtorOpen
  rw [hfl]

/-- C7: constructing a `linux_file_t` for a path whose `stat` reports
`ENOENT` without `mode_create` returns early with `file_exists = false`,
before any descriptor is opened; with `mode_create` (and a derivable access
mode) it opens the path with `O_CREAT`, yielding `exists() = true` and a
freshly created regular file of size 0. -/
theorem ctor_nonexistent_path (w : SysWorld) (mode : Mode) (d : Bool)
    (hstat : w.statResult = none) :
    (mode.create = false → fileCtor w mode d = CtorResult.notExists) ∧
    (mode.create = true → w.existsAtOpen = false →
      ∀ flags, mkFlags mode d false = some flags →
        fileCtor w mode d = CtorResult.opened flags ⟨false, 0⟩ true true) := by
  constructor
  · intro hc
    unfold fileCtor
    rw [hstat, hc]
  · intro hc heo flags hflags
    unfold fileCtor
    rw [hstat, hc]
    rw [fileCtorOpen_of_flags w mode d false flags hflags, heo]
    rfl

/-- Witness for C7: nonexistent path without create, then with create. -/
theorem ctor_nonexistent_path_witness :
    fileCtor ⟨none, false, 0, 0⟩ ⟨false, true, true⟩ true =
      CtorResult.notExists ∧
    fileCtor ⟨none, false, 0, 0⟩ ⟨true, true, true⟩ true =
      CtorResult.opened ⟨true, true, true, true, false, false, true⟩
        ⟨false, 0⟩ true true :=
  ⟨(ctor_nonexistent_path ⟨none, false, 0, 0⟩ ⟨false, true, true⟩ true
      rfl).1 rfl,
   (ctor_nonexistent_path ⟨none, false, 0, 0⟩ ⟨true, true, true⟩ true
      rfl).2 rfl rfl ⟨true, true, true, true, false, false, true⟩ rfl⟩

/-- C9: the open flags derived from the access mode are read-write when both
read and write are requested, write-only for write alone, read-only for read
alone; requesting neither is a crash, reached after the existence check but
before any `open` call (the constructor result is `crashed`, not an opened
or open-failed file). -/
theorem ctor_access_mode_flags (mode : Mode) (d ib : Bool) :
    (mode.read = true → mode.write = true →
      mkFlags mode d ib = some ⟨true, d, true, true, false, false, !ib⟩) ∧
    (mode.read = false → mode.write = true →
      mkFlags mode d ib = some ⟨true, d, true, false, true, false, !ib⟩) ∧
    (mode.read = true → mode.write = false →
      mkFlags mode d ib = some ⟨true, d, true, false, false, true, !ib⟩) ∧
    (mode.read = false → mode.write = false → mkFlags mode d ib = none) ∧
    (∀ w : SysWorld, (w.statResult ≠ none ∨ mode.create = true) →
      mode.read = false → mode.write = false →
      fileCtor w mode d = CtorResult.crashed) := by
  obtain ⟨mc, mr, mw⟩ := mode
  have hnone : ∀ ibx : Bool, mr = false → mw = false →
      mkFlags ⟨mc, mr, mw⟩ d ibx = none := by
    intro ibx h1 h2
    cases h1
    cases h2
    rfl
  refine ⟨?_, ?_, ?_, hnone ib, ?_⟩
  · intro h1 h2; cases h1; cases h2; rfl
  · intro h1 h2; cases h1; cases h2; rfl
  · intro h1 h2; cases h1; cases h2; rfl
  · intro w hreach h1 h2
    unfold fileCtor
    cases hsr : w.statResult with
    | none =>
      rcases hreach with hne | hcr
      · exact absurd hsr hne
      · rw [hcr]
        exact fileCtorOpen_crashed w _ d false (hnone false h1 h2)
    | some st =>
      cases hmc : mc <;>
        exact fileCtorOpen_crashed w _ d st.isBlock (hnone st.isBlock h1 h2)

/-- Witness for C9: read-only flag derivation and the crash case. -/
theorem ctor_access_mode_flags_witness :
    mkFlags ⟨false, true, false⟩ true false =
      some ⟨true, true, true, false, false, true, true⟩ ∧
    fileCtor ⟨some ⟨false⟩, true, 0, 0⟩ ⟨false, false, false⟩ true =
      CtorResult.crashed :=
  ⟨(ctor_access_mode_flags ⟨false, true, false⟩ true false).2.2.1 rfl rfl,
   (ctor_access_mode_flags ⟨false, false, false⟩ true false).2.2.2.2
     ⟨some ⟨false⟩, true, 0, 0⟩ (Or.inl (by simp)) rfl rfl⟩

/-- C10: whenever the constructor reaches `open` it passes `O_CREAT`
unconditionally, whatever the mode bits; `open` therefore cannot fail for a
missing path, and a path that exists at `stat` time but is gone at `open`
time is silently created (result `opened` with `createdNew = true`) instead
of being reported as missing. -/
theorem ctor_always_creat (w : SysWorld) (mode : Mode) (d : Bool) :
    (∀ fl f fe cn, fileCtor w mode d = CtorResult.opened fl f fe cn →
      fl.creat = true) ∧
    fileCtor w mode d ≠ CtorResult.openFailed ∧
    (∀ st, w.statResult = some st → w.existsAtOpen = false →
      ∀ fl, mkFlags mode d st.isBlock = some fl →
        fileCtor w mode d =
          CtorResult.opened fl
            ⟨st.isBlock, if st.isBlock then w.blockDevSize else 0⟩
            true true) := by
  have hopen : ∀ ib fl f fe cn,
      fileCtorOpen w mode d ib = CtorResult.opened fl f fe cn →
      fl.creat = true := by
    intro ib fl f fe cn heq
    cases hfl : mkFlags mode d ib with
    | none =>
      rw [fileCtorOpen_crashed w mode d ib hfl] at heq
      exact absurd heq (by simp)
    | some flags =>
      rw [fileCtorOpen_of_flags w mode d ib flags hfl] at heq
      rw [CtorResult.opened.injEq] at heq
      obtain ⟨rfl, -, -, -⟩ := heq
      exact mkFlags_creat mode d ib flags hfl
  have hnofail : ∀ ib, fileCtorOpen w mode d ib ≠ CtorResult.openFailed := by
    intro ib heq
    cases hfl : mkFlags mode d ib with
    | none =>
      rw [fileCtorOpen_crashed w mode d ib hfl] at heq
      exact absurd heq (by simp)
    | some flags =>
      rw [fileCtorOpen_of_flags w mode d ib flags hfl] at heq
      exact absurd heq (by simp)
  refine ⟨?_, ?_, ?_⟩
  · intro fl f fe cn heq
    unfold fileCtor at heq
    revert heq
    cases hsr : w.statResult with
    | none =>
      cases hmc : mode.create with
      | false => intro heq; exact absurd heq (by simp)
      | true => exact hopen false fl f fe cn
    | some st =>
      cases hmc : mode.create <;> exact hopen st.isBlock fl f fe cn
  · unfold fileCtor
    cases hsr : w.statResult with
    | none =>
      cases hmc : mode.create with
      | false => simp
      | true => exact hnofail false
    | some st =>
      cases hmc : mode.create <;> exact hnofail st.isBlock
  · intro st hst heo fl hfl
    unfold fileCtor
    rw [hst]
    have hrw := fileCtorOpen_of_flags w mode d st.isBlock fl hfl
    rw [heo] at hrw
    cases hmc : mode.create <;> simpa using hrw

/-- Witness for C10: a file present at `stat` but gone at `open`, without
`mode_create`, is silently created rather than reported missing. -/
theorem ctor_always_creat_witness :
    fileCtor ⟨some ⟨false⟩, false, 0, 777⟩ ⟨false, true, false⟩ true =
      CtorResult.opened ⟨true, true, true, false, false, true, true⟩
        ⟨false, 0⟩ true true ∧
    fileCtor ⟨some ⟨false⟩, false, 0, 777⟩ ⟨false, true, false⟩ true ≠
      CtorResult.openFailed := by
  refine ⟨?_, (ctor_always_creat ⟨some ⟨false⟩, false, 0, 777⟩
    ⟨false, true, false⟩ true).2.1⟩
  have := (ctor_always_creat ⟨some ⟨false⟩, false, 0, 777⟩
    ⟨false, true, false⟩ true).2.2 ⟨false⟩ rfl rfl
    ⟨true, true, true, false, false, true, true⟩ rfl
  simpa using this


/-! ## Claims about blocking I/O -/

theorem blockingLoop_replicate_eintr (len k : Nat) (script : List SysRes) :
    blockingLoop len (List.replicate k (SysRes.err true) ++ script) =
      blockingLoop len script := by
  induction k with
  | zero => rfl
  | succ k ih =>
    rw [List.replicate_succ, List.cons_append]
    exact ih

theorem blockingLoop_returned_len (len : Nat) (script : List SysRes) (t : Nat)
    (hlen : len < U64) (hne : len ≠ U64 - 1)
    (hvalid : ∀ n, SysRes.ok n ∈ script → n ≤ len)
    (h : blockingLoop len script = BlockRes.returned t) : t = len := by
  induction script with
  | nil => exact absurd h (by simp [blockingLoop])
  | cons x rest ih =>
    cases x with
    | ok n =>
      have hn : n ≤ len := hvalid n (List.mem_cons_self _ _)
      have hmod : n % U64 = n := Nat.mod_eq_of_lt (by omega)
      rw [blockingLoop, hmod] at h
      by_cases heq : n = len
      · rw [if_pos heq] at h
        cases h
        exact heq
      · rw [if_neg heq] at h
        exact absurd h (by simp)
    | err e =>
      cases e
      · rw [blockingLoop, if_neg (fun hc => hne hc.symm)] at h
        exact absurd h (by simp)
      · exact ih (fun n hn => hvalid n (List.mem_cons_of_mem _ hn)) h

/-- C8: the blocking read/write loop reissues the positioned system call on
an interrupted-system-call error without surfacing anything (leading `EINTR`
outcomes are invisible in the result, and `write_blocking` behaves exactly
as `read_blocking`); once `verify` has passed, a first real outcome that
transfers fewer bytes than requested, or a non-`EINTR` error, is a fatal
assertion failure, and a non-fatal return transferred exactly `length`
bytes. -/
theorem blocking_io_retry (f : FileT) (off len buf k : Nat)
    (script : List SysRes) (r : BlockRes)
    (hlen : len < U64)
    (hvalid : ∀ n, SysRes.ok n ∈ script → n ≤ len)
    (h : read_blocking f off len buf
      (List.replicate k (SysRes.err true) ++ script) = some r) :
    read_blocking f off len buf script = some r ∧
    write_blocking f off len buf
      (List.replicate k (SysRes.err true) ++ script) = some r ∧
    (∀ t, r = BlockRes.returned t → t = len) ∧
    (∀ n rest, script = SysRes.ok n :: rest → n < len →
      r = BlockRes.fatal) ∧
    (∀ rest, script = SysRes.err false :: rest → r = BlockRes.fatal) := by
  have hv : verifyOk f.fileSize off len buf = true := by
    by_contra hv
    rw [read_blocking, if_neg hv] at h
    exact absurd h (by simp)
  have hial : len % DEVICE_BLOCK_SIZE = 0 :=
    ((verifyOk_iff _ _ _ _).1 hv).2.2.2.2
  have hne : len ≠ U64 - 1 := by
    intro hcon
    rw [hcon] at hial
    revert hial
    decide
  rw [read_blocking, if_pos hv, blockingLoop_replicate_eintr] at h
  have hbl : blockingLoop len script = r := Option.some.inj h
  refine ⟨?_, ?_, ?_, ?_, ?_⟩
  · rw [read_blocking, if_pos hv, hbl]
  · rw [write_blocking, if_pos hv, blockingLoop_replicate_eintr, hbl]
  · intro t ht
    exact blockingLoop_returned_len len script t hlen hne hvalid (ht ▸ hbl)
  · intro n rest hs hlt
    rw [hs] at hbl
    rw [blockingLoop, Nat.mod_eq_of_lt (by omega),
      if_neg (by omega)] at hbl
    exact hbl.symm
  · intro rest hs
    rw [hs] at hbl
    rw [blockingLoop, if_neg (fun hc => hne hc.symm)] at hbl
    exact hbl.symm

/-- Witness for C8: two interrupts followed by a full 4096-byte transfer. -/
theorem blocking_io_retry_witness :
    read_blocking ⟨false, 8192⟩ 0 4096 4096 [SysRes.ok 4096] =
      some (BlockRes.returned 4096) ∧
    write_blocking ⟨false, 8192⟩ 0 4096 4096
      (List.replicate 2 (SysRes.err true) ++ [SysRes.ok 4096]) =
      some (BlockRes.returned 4096) := by
  have hvalid : ∀ n, SysRes.ok n ∈ [SysRes.ok 4096] → n ≤ 4096 := by
    intro n hn
    rw [List.mem_singleton] at hn
    cases hn
    exact Nat.le_refl _
  have h := blocking_io_retry ⟨false, 8192⟩ 0 4096 4096 2 [SysRes.ok 4096]
    (BlockRes.returned 4096) (by decide) hvalid (by decide)
  exact ⟨h.1, h.2.1⟩


/-! ## Pipeline lemmas: the drain pass -/

theorem overlaps_symm (x y : Action) (h : overlaps x y = true) :
    overlaps y x = true := by
  simp only [overlaps, Bool.and_eq_true, beq_iff_eq, decide_eq_true_eq] at h ⊢
  exact ⟨⟨h.1.1.symm, h.2⟩, h.1.2⟩

theorem conflictsAny_eq_false_iff (x : Action) (l : List Action) :
    conflictsAny x l = false ↔ ∀ y ∈ l, overlaps x y = false := by
  simp only [conflictsAny, List.any_eq_false, Bool.not_eq_true]

theorem conflictsAny_eq_true_of_mem (x y : Action) (l : List Action)
    (hy : y ∈ l) (h : overlaps x y = true) : conflictsAny x l = true := by
  simp only [conflictsAny, List.any_eq_true]
  exact ⟨y, hy, h⟩

theorem drain_fst (infl kept qs : List Action) :
    (drain infl kept qs).1 = infl ++ (drain infl kept qs).2.2 := by
  induction qs generalizing infl kept with
  | nil => simp [drain]
  | cons q qs ih =>
    rw [drain]
    by_cases hc : conflictsAny q (infl ++ kept) = true
    · rw [if_pos hc]
      exact ih infl (kept ++ [q])
    · rw [if_neg hc]
      have := ih (infl ++ [q]) kept
      simp only [this, List.append_assoc, List.singleton_append]

theorem drain_perm (infl kept qs : List Action) :
    List.Perm ((drain infl kept qs).2.1 ++ (drain infl kept qs).2.2)
      (kept ++ qs) := by
  induction qs generalizing infl kept with
  | nil => simp [drain]
  | cons q qs ih =>
    rw [drain]
    by_cases hc : conflictsAny q (infl ++ kept) = true
    · rw [if_pos hc]
      refine (ih infl (kept ++ [q])).trans ?_
      rw [List.append_assoc, List.singleton_append]
    · rw [if_neg hc]
      have h1 := ih (infl ++ [q]) kept
      refine List.Perm.trans List.perm_middle ?_
      exact List.Perm.trans (h1.cons q) List.perm_middle.symm

theorem drain_kept_sublist (infl kept qs : List Action) :
    List.Sublist (drain infl kept qs).2.1 (kept ++ qs) := by
  induction qs generalizing infl kept with
  | nil => simp [drain]
  | cons q qs ih =>
    rw [drain]
    by_cases hc : conflictsAny q (infl ++ kept) = true
    · rw [if_pos hc]
      have := ih infl (kept ++ [q])
      rwa [List.append_assoc, List.singleton_append] at this
    · rw [if_neg hc]
      exact (ih (infl ++ [q]) kept).trans
        (List.Sublist.append_left (List.sublist_cons_self q qs) kept)

theorem drain_rel_sublist (infl kept qs : List Action) :
    List.Sublist (drain infl kept qs).2.2 qs := by
  induction qs generalizing infl kept with
  | nil => simp [drain]
  | cons q qs ih =>
    rw [drain]
    by_cases hc : conflictsAny q (infl ++ kept) = true
    · rw [if_pos hc]
      exact (ih infl (kept ++ [q])).trans (List.sublist_cons_self q qs)
    · rw [if_neg hc]
      exact (ih (infl ++ [q]) kept).cons₂ q

theorem drain_queue_nonempty (qs : List Action) : ∀ infl : List Action,
    (drain infl [] qs).2.1 ≠ [] → (drain infl [] qs).1 ≠ [] := by
  induction qs with
  | nil => intro infl h; exact absurd rfl h
  | cons q qs ih =>
    intro infl h
    rw [drain] at h ⊢
    by_cases hc : conflictsAny q (infl ++ []) = true
    · rw [if_pos hc] at h ⊢
      have hinfl : infl ≠ [] := by
        intro he
        rw [he] at hc
        simp [conflictsAny] at hc
      rw [drain_fst]
      intro hcon
      exact hinfl (List.append_eq_nil.1 hcon).1
    · rw [if_neg hc] at h ⊢
      exact ih (infl ++ [q]) h

theorem drain_not_released_of_mem (a b : Action) (hov : overlaps b a = true) :
    ∀ (qs infl kept : List Action), a ∈ infl ++ kept →
      b ∉ (drain infl kept qs).2.2 := by
  intro qs
  induction qs with
  | nil => intro infl kept _; simp [drain]
  | cons q qs ih =>
    intro infl kept ha
    rw [drain]
    by_cases hc : conflictsAny q (infl ++ kept) = true
    · rw [if_pos hc]
      refine ih infl (kept ++ [q]) ?_
      rw [← List.append_assoc]
      exact List.mem_append_left _ ha
    · rw [if_neg hc]
      have hbq : b ≠ q := by
        rintro rfl
        exact absurd (conflictsAny_eq_true_of_mem b a _ ha hov) hc
      intro hmem
      rcases List.mem_cons.1 hmem with h | h
      · exact hbq h
      · refine ih (infl ++ [q]) kept ?_ h
        rcases List.mem_append.1 ha with h1 | h1
        · exact List.mem_append_left _ (List.mem_append_left _ h1)
        · exact List.mem_append_right _ h1

theorem drain_not_released_of_queued_before (a b : Action)
    (hov : overlaps b a = true) (hne : b ≠ a) :
    ∀ (q1 q2 infl kept : List Action), b ∉ q1 →
      b ∉ (drain infl kept (q1 ++ a :: q2)).2.2 := by
  intro q1
  induction q1 with
  | nil =>
    intro q2 infl kept _
    rw [List.nil_append, drain]
    by_cases hc : conflictsAny a (infl ++ kept) = true
    · rw [if_pos hc]
      exact drain_not_released_of_mem a b hov q2 infl (kept ++ [a])
        (List.mem_append_right _ (List.mem_append_right _ (List.mem_singleton.2 rfl)))
    · rw [if_neg hc]
      intro hmem
      rcases List.mem_cons.1 hmem with h | h
      · exact hne h
      · exact drain_not_released_of_mem a b hov q2 (infl ++ [a]) kept
          (List.mem_append_left _ (List.mem_append_right _ (List.mem_singleton.2 rfl))) h
  | cons x q1 ih =>
    intro q2 infl kept hb
    have hbx : b ≠ x := fun hc => hb (hc ▸ List.mem_cons_self _ _)
    have hb1 : b ∉ q1 := fun hc => hb (List.mem_cons_of_mem _ hc)
    rw [List.cons_append, drain]
    by_cases hc : conflictsAny x (infl ++ kept) = true
    · rw [if_pos hc]
      exact ih q2 infl (kept ++ [x]) hb1
    · rw [if_neg hc]
      intro hmem
      rcases List.mem_cons.1 hmem with h | h
      · exact hbx h
      · exact ih q2 (infl ++ [x]) kept hb1 h


/-! ## Pipeline lemmas: list order helpers -/

theorem pair_sublist_cons_inv {a b x : Action} {l : List Action}
    (h : List.Sublist [a, b] (x :: l)) :
    (x = a ∧ List.Sublist [b] l) ∨ List.Sublist [a, b] l := by
  cases h with
  | cons z h1 => exact Or.inr h1
  | cons₂ z h1 => exact Or.inl ⟨rfl, h1⟩

theorem pair_sublist_decomp {a b : Action} :
    ∀ l : List Action, List.Sublist [a, b] l →
      ∃ q1 q2, l = q1 ++ a :: q2 ∧ b ∈ q2 := by
  intro l
  induction l with
  | nil => intro h; exact absurd (h.subset (List.mem_cons_self _ _)) (by simp)
  | cons x l ih =>
    intro h
    rcases pair_sublist_cons_inv h with ⟨rfl, h1⟩ | h1
    · exact ⟨[], l, rfl, List.singleton_sublist.1 h1⟩
    · obtain ⟨q1, q2, rfl, hb⟩ := ih h1
      exact ⟨x :: q1, q2, rfl, hb⟩

theorem pair_sublist_intro {a b : Action} (q1 q2 : List Action) (hb : b ∈ q2) :
    List.Sublist [a, b] (q1 ++ a :: q2) :=
  List.Sublist.trans (List.Sublist.cons₂ a (List.singleton_sublist.2 hb))
    (List.sublist_append_right q1 (a :: q2))

theorem pair_sublist_of_sublist {a b : Action} (hne : a ≠ b) :
    ∀ {l' l : List Action}, List.Sublist l' l → l.Nodup → a ∈ l' → b ∈ l' →
      List.Sublist [a, b] l → List.Sublist [a, b] l' := by
  intro l' l hsub
  induction hsub with
  | slnil => intro _ ha _ _; exact absurd ha (List.not_mem_nil a)
  | @cons l1 l2 x hsub ih =>
    intro hnd ha hb hab
    have hxa : x ≠ a := by
      rintro rfl
      exact (List.nodup_cons.1 hnd).1 (hsub.subset ha)
    rcases pair_sublist_cons_inv hab with ⟨h1, -⟩ | h1
    · exact absurd h1 hxa
    · exact ih (List.nodup_cons.1 hnd).2 ha hb h1
  | @cons₂ l1 l2 x hsub ih =>
    intro hnd ha hb hab
    rcases eq_or_ne x a with heq | hxa
    · subst heq
      have hb' : b ∈ l1 := by
        rcases List.mem_cons.1 hb with h | h
        · exact absurd h.symm hne
        · exact h
      exact List.Sublist.cons₂ x (List.singleton_sublist.2 hb')
    · have ha' : a ∈ l1 := by
        rcases List.mem_cons.1 ha with h | h
        · exact absurd h.symm hxa
        · exact h
      have hbx : b ≠ x := by
        rintro rfl
        rcases pair_sublist_cons_inv hab with ⟨h1, -⟩ | h1
        · exact hxa h1
        · exact (List.nodup_cons.1 hnd).1 (h1.subset (by simp))
      have hb' : b ∈ l1 := by
        rcases List.mem_cons.1 hb with h | h
        · exact absurd h hbx
        · exact h
      have hab' : List.Sublist [a, b] l2 := by
        rcases pair_sublist_cons_inv hab with ⟨h1, -⟩ | h1
        · exact absurd h1 hxa
        · exact h1
      exact List.Sublist.cons x (ih (List.nodup_cons.1 hnd).2 ha' hb' hab')

theorem split_append_cons {x : Out} :
    ∀ (l1 l2 u v : List Out), l1 ++ l2 = u ++ x :: v →
      x ∈ l1 ∨ ∃ u', u = l1 ++ u' ∧ l2 = u' ++ x :: v := by
  intro l1
  induction l1 with
  | nil => intro l2 u v h; exact Or.inr ⟨u, rfl, by simpa using h⟩
  | cons y l1 ih =>
    intro l2 u v h
    cases u with
    | nil =>
      rw [List.nil_append] at h
      injection h with h1 h2
      exact Or.inl (h1 ▸ List.mem_cons_self _ _)
    | cons z u =>
      rw [List.cons_append, List.cons_append] at h
      injection h with h1 h2
      rcases ih l2 u v h2 with h3 | ⟨u', rfl, hl2⟩
      · exact Or.inl (List.mem_cons_of_mem _ h3)
      · refine Or.inr ⟨u', ?_, hl2⟩
        rw [h1, List.cons_append]

theorem mem_head_of_append_cons {c x : Out} :
    ∀ (l u v : List Out), c :: l = u ++ x :: v → x ≠ c → c ∈ u := by
  intro l u v h hne
  cases u with
  | nil =>
    rw [List.nil_append] at h
    injection h with h1 h2
    exact absurd h1.symm hne
  | cons z u =>
    rw [List.cons_append] at h
    injection h with h1 h2
    exact List.mem_cons.2 (Or.inl h1)

/-! ## Pipeline lemmas: runs and conservation -/

theorem run_append (t1 : List Ev) : ∀ (s : CRState) (t2 : List Ev),
    run s (t1 ++ t2) =
      ((run (run s t1).1 t2).1, (run s t1).2 ++ (run (run s t1).1 t2).2) := by
  induction t1 with
  | nil => intro s t2; simp [run]
  | cons e t1 ih =>
    intro s t2
    rw [List.cons_append, run, run, ih (step s e).1 t2]
    simp [List.append_assoc]

theorem subsOf_append (t1 : List Ev) : ∀ t2 : List Ev,
    subsOf (t1 ++ t2) = subsOf t1 ++ subsOf t2 := by
  induction t1 with
  | nil => intro t2; rfl
  | cons e t1 ih =>
    intro t2
    cases e with
    | sub a => rw [List.cons_append, subsOf, subsOf, ih, List.cons_append]
    | comp a => rw [List.cons_append, subsOf, subsOf, ih]

theorem cbListOf_append (l1 l2 : List Out) :
    cbListOf (l1 ++ l2) = cbListOf l1 ++ cbListOf l2 :=
  List.filterMap_append l1 l2 _

theorem cbListOf_bsubs (R : List Action) :
    cbListOf (R.map Out.bsub) = [] := by
  induction R with
  | nil => rfl
  | cons x R ih => simp [cbListOf, List.filterMap_cons]

theorem mcoe_append (l1 l2 : List Action) :
    ((l1 ++ l2 : List Action) : Multiset Action) = ↑l1 + ↑l2 := rfl

theorem mcoe_single (x : Action) :
    (([x] : List Action) : Multiset Action) = {x} := rfl

theorem step_conservation (s : CRState) (e : Ev) :
    ((step s e).1.inflight : Multiset Action) + ↑(step s e).1.queue +
        ↑(cbListOf (step s e).2) =
      (s.inflight : Multiset Action) + ↑s.queue + ↑(subsOf [e]) := by
  cases e with
  | sub x =>
    by_cases hc : conflictsAny x (s.inflight ++ s.queue) = true
    · have hstep : step s (Ev.sub x) =
          ({ s with queue := s.queue ++ [x] }, []) := by
        simp [step, submitStep, hc]
      rw [hstep]
      show (s.inflight : Multiset Action) + ↑(s.queue ++ [x]) +
          ↑(cbListOf []) = ↑s.inflight + ↑s.queue + ↑(subsOf [Ev.sub x])
      show (s.inflight : Multiset Action) + ↑(s.queue ++ [x]) +
          ↑([] : List Action) = ↑s.inflight + ↑s.queue + ↑[x]
      rw [mcoe_append, mcoe_single]
      show (s.inflight : Multiset Action) + (↑s.queue + {x}) + 0 =
        ↑s.inflight + ↑s.queue + {x}
      abel
    · have hstep : step s (Ev.sub x) =
          ({ s with inflight := s.inflight ++ [x] }, [Out.bsub x]) := by
        simp [step, submitStep, hc]
      rw [hstep]
      show ((s.inflight ++ [x] : List Action) : Multiset Action) + ↑s.queue +
          ↑(cbListOf [Out.bsub x]) = ↑s.inflight + ↑s.queue + ↑(subsOf [Ev.sub x])
      show ((s.inflight ++ [x] : List Action) : Multiset Action) + ↑s.queue +
          ↑([] : List Action) = ↑s.inflight + ↑s.queue + ↑[x]
      rw [mcoe_append, mcoe_single]
      show (s.inflight : Multiset Action) + {x} + ↑s.queue + 0 =
        ↑s.inflight + ↑s.queue + {x}
      abel
  | comp x =>
    by_cases hx : x ∈ s.inflight
    · have hstep : step s (Ev.comp x) = doneStep s x := by
        simp [step, hx]
      rw [hstep]
      have herase : (s.inflight : Multiset Action) =
          {x} + ↑(s.inflight.erase x) := by
        rw [Multiset.coe_eq_coe.2 (List.perm_cons_erase hx)]
        rfl
      have hfst : ((doneStep s x).1.inflight : Multiset Action) =
          ↑(s.inflight.erase x) +
            ↑(drain (s.inflight.erase x) [] s.queue).2.2 := by
        show ((drain (s.inflight.erase x) [] s.queue).1 : Multiset Action) = _
        rw [drain_fst]
        exact mcoe_append _ _
      have hq : ((doneStep s x).1.queue : Multiset Action) +
          ↑(drain (s.inflight.erase x) [] s.queue).2.2 = ↑s.queue := by
        show ((drain (s.inflight.erase x) [] s.queue).2.1 : Multiset Action) +
          ↑(drain (s.inflight.erase x) [] s.queue).2.2 = ↑s.queue
        rw [← mcoe_append,
          Multiset.coe_eq_coe.2 (drain_perm (s.inflight.erase x) [] s.queue)]
        rfl
      have hcb : (↑(cbListOf (doneStep s x).2) : Multiset Action) = {x} := by
        show (↑(cbListOf (Out.cb x :: Out.free x ::
          ((drain (s.inflight.erase x) [] s.queue).2.2.map Out.bsub))) :
            Multiset Action) = {x}
        rw [show cbListOf (Out.cb x :: Out.free x ::
          ((drain (s.inflight.erase x) [] s.queue).2.2.map Out.bsub)) =
            x :: cbListOf ((drain (s.inflight.erase x) [] s.queue).2.2.map
              Out.bsub) from rfl]
        rw [cbListOf_bsubs]
        rfl
      rw [hcb, hfst]
      show ((s.inflight.erase x : List Action) : Multiset Action) +
          ↑(drain (s.inflight.erase x) [] s.queue).2.2 +
          ↑(doneStep s x).1.queue + {x} =
        ↑s.inflight + ↑s.queue + ↑(subsOf [Ev.comp x])
      rw [herase]
      show ((s.inflight.erase x : List Action) : Multiset Action) +
          ↑(drain (s.inflight.erase x) [] s.queue).2.2 +
          ↑(doneStep s x).1.queue + {x} =
        {x} + ↑(s.inflight.erase x) + ↑s.queue + ↑([] : List Action)
      rw [← hq]
      show ((s.inflight.erase x : List Action) : Multiset Action) +
          ↑(drain (s.inflight.erase x) [] s.queue).2.2 +
          ↑(doneStep s x).1.queue + {x} =
        {x} + ↑(s.inflight.erase x) +
          (↑(doneStep s x).1.queue +
            ↑(drain (s.inflight.erase x) [] s.queue).2.2) + 0
      abel
    · have hstep : step s (Ev.comp x) = (s, []) := by
        simp [step, hx]
      rw [hstep]
      show (s.inflight : Multiset Action) + ↑s.queue + ↑([] : List Action) =
        ↑s.inflight + ↑s.queue + ↑([] : List Action)
      rfl

theorem run_conservation : ∀ (t : List Ev) (s : CRState),
    ((run s t).1.inflight : Multiset Action) + ↑(run s t).1.queue +
        ↑(cbListOf (run s t).2) =
      (s.inflight : Multiset Action) + ↑s.queue + ↑(subsOf t) := by
  intro t
  induction t with
  | nil => intro s; rfl
  | cons e es ih =>
    intro s
    have hrun : run s (e :: es) =
        ((run (step s e).1 es).1, (step s e).2 ++ (run (step s e).1 es).2) := by
      rw [run]
    rw [hrun]
    have hsubs : (↑(subsOf (e :: es)) : Multiset Action) =
        ↑(subsOf [e]) + ↑(subsOf es) := by
      rw [← mcoe_append, ← subsOf_append]
      rfl
    show ((run (step s e).1 es).1.inflight : Multiset Action) +
        ↑(run (step s e).1 es).1.queue +
        ↑(cbListOf ((step s e).2 ++ (run (step s e).1 es).2)) =
      ↑s.inflight + ↑s.queue + ↑(subsOf (e :: es))
    rw [cbListOf_append, mcoe_append, hsubs]
    have h1 := ih (step s e).1
    have h2 := step_conservation s e
    calc ((run (step s e).1 es).1.inflight : Multiset Action) +
          ↑(run (step s e).1 es).1.queue +
          (↑(cbListOf (step s e).2) + ↑(cbListOf (run (step s e).1 es).2))
        = (↑(run (step s e).1 es).1.inflight +
            ↑(run (step s e).1 es).1.queue +
            ↑(cbListOf (run (step s e).1 es).2)) +
          ↑(cbListOf (step s e).2) := by abel
      _ = (↑(step s e).1.inflight + ↑(step s e).1.queue + ↑(subsOf es)) +
          ↑(cbListOf (step s e).2) := by rw [h1]
      _ = (↑(step s e).1.inflight + ↑(step s e).1.queue +
            ↑(cbListOf (step s e).2)) + ↑(subsOf es) := by abel
      _ = (↑s.inflight + ↑s.queue + ↑(subsOf [e])) + ↑(subsOf es) := by rw [h2]
      _ = ↑s.inflight + ↑s.queue + (↑(subsOf [e]) + ↑(subsOf es)) := by abel


theorem run_nodup (t : List Ev) (hnd : (subsOf t).Nodup) :
    ((run CRState.init t).1.inflight ++ (run CRState.init t).1.queue ++
      cbListOf (run CRState.init t).2).Nodup := by
  have h := run_conservation t CRState.init
  have hinit : ((CRState.init.inflight : Multiset Action) + ↑CRState.init.queue +
      ↑(subsOf t)) = (↑(subsOf t) : Multiset Action) := by
    show (0 : Multiset Action) + 0 + ↑(subsOf t) = ↑(subsOf t)
    abel
  rw [hinit] at h
  have hm : ((((run CRState.init t).1.inflight ++ (run CRState.init t).1.queue ++
      cbListOf (run CRState.init t).2 : List Action)) : Multiset Action) =
      (↑(subsOf t) : Multiset Action) := by
    rw [mcoe_append, mcoe_append]
    exact h
  have := Multiset.coe_nodup.2 hnd
  rw [← hm] at this
  exact Multiset.coe_nodup.1 this

theorem run_state_mem_subs (t : List Ev) (x : Action)
    (hx : x ∈ (run CRState.init t).1.inflight ∨
      x ∈ (run CRState.init t).1.queue) :
    x ∈ subsOf t := by
  have h := run_conservation t CRState.init
  have hinit : ((CRState.init.inflight : Multiset Action) + ↑CRState.init.queue +
      ↑(subsOf t)) = (↑(subsOf t) : Multiset Action) := by
    show (0 : Multiset Action) + 0 + ↑(subsOf t) = ↑(subsOf t)
    abel
  rw [hinit] at h
  have hmem : x ∈ ((run CRState.init t).1.inflight : Multiset Action) +
      ↑(run CRState.init t).1.queue + ↑(cbListOf (run CRState.init t).2) := by
    rcases hx with h1 | h1
    · exact Multiset.mem_add.2 (Or.inl (Multiset.mem_add.2
        (Or.inl (Multiset.mem_coe.2 h1))))
    · exact Multiset.mem_add.2 (Or.inl (Multiset.mem_add.2
        (Or.inr (Multiset.mem_coe.2 h1))))
  rw [h] at hmem
  exact Multiset.mem_coe.1 hmem

theorem run_cb_mem_subs (t : List Ev) (x : Action)
    (hx : x ∈ cbListOf (run CRState.init t).2) : x ∈ subsOf t := by
  have h := run_conservation t CRState.init
  have hinit : ((CRState.init.inflight : Multiset Action) + ↑CRState.init.queue +
      ↑(subsOf t)) = (↑(subsOf t) : Multiset Action) := by
    show (0 : Multiset Action) + 0 + ↑(subsOf t) = ↑(subsOf t)
    abel
  rw [hinit] at h
  have hmem : x ∈ ((run CRState.init t).1.inflight : Multiset Action) +
      ↑(run CRState.init t).1.queue + ↑(cbListOf (run CRState.init t).2) :=
    Multiset.mem_add.2 (Or.inr (Multiset.mem_coe.2 hx))
  rw [h] at hmem
  exact Multiset.mem_coe.1 hmem

theorem cb_mem_cbListOf (l : List Out) (x : Action) :
    Out.cb x ∈ l ↔ x ∈ cbListOf l := by
  induction l with
  | nil => simp [cbListOf]
  | cons o l ih =>
    cases o <;>
      simp [cbListOf, List.filterMap_cons, List.mem_cons, ih, cbListOf] at ih ⊢

theorem bsub_mem_subs_or_queue (t : List Ev) : ∀ (s : CRState) (x : Action),
    Out.bsub x ∈ (run s t).2 → x ∈ subsOf t ∨ x ∈ s.queue := by
  induction t with
  | nil => intro s x h; simp [run] at h
  | cons e es ih =>
    intro s x h
    have hrun : run s (e :: es) =
        ((run (step s e).1 es).1, (step s e).2 ++ (run (step s e).1 es).2) := by
      rw [run]
    rw [hrun] at h
    rcases List.mem_append.1 h with hchunk | hrest
    · cases e with
      | sub y =>
        by_cases hc : conflictsAny y (s.inflight ++ s.queue) = true
        · simp [step, submitStep, hc] at hchunk
        · simp [step, submitStep, hc] at hchunk
          exact Or.inl (hchunk ▸ List.mem_cons_self _ _)
      | comp y =>
        by_cases hy : y ∈ s.inflight
        · simp only [step, if_pos hy, doneStep] at hchunk
          rcases List.mem_cons.1 hchunk with h1 | h1
          · exact absurd h1 (by simp)
          rcases List.mem_cons.1 h1 with h2 | h2
          · exact absurd h2 (by simp)
          obtain ⟨z, hz, hzx⟩ := List.mem_map.1 h2
          have hzq : z ∈ s.queue :=
            (drain_rel_sublist (s.inflight.erase y) [] s.queue).subset hz
          have : z = x := by injection hzx
          exact Or.inr (this ▸ hzq)
        · simp [step, hy] at hchunk
    · rcases ih (step s e).1 x hrest with h1 | h1
      · cases e with
        | sub y => exact Or.inl (List.mem_cons_of_mem _ h1)
        | comp y => exact Or.inl h1
      · cases e with
        | sub y =>
          by_cases hc : conflictsAny y (s.inflight ++ s.queue) = true
          · simp only [step, submitStep, if_pos hc] at h1
            rcases List.mem_append.1 h1 with h2 | h2
            · exact Or.inr h2
            · exact Or.inl (List.mem_singleton.1 h2 ▸ List.mem_cons_self _ _)
          · simp only [step, submitStep, if_neg hc] at h1
            exact Or.inr h1
        | comp y =>
          by_cases hy : y ∈ s.inflight
          · simp only [step, if_pos hy, doneStep] at h1
            have := (drain_kept_sublist (s.inflight.erase y) [] s.queue).subset h1
            exact Or.inr this
          · simp only [step, if_neg hy] at h1
            exact Or.inr h1

theorem cb_preceded_by_bsub (t : List Ev) :
    ∀ (s : CRState) (x : Action) (u v : List Out),
      (run s t).2 = u ++ Out.cb x :: v → Out.bsub x ∈ u ∨ x ∈ s.inflight := by
  induction t with
  | nil =>
    intro s x u v h
    rw [run] at h
    rcases u with _ | ⟨o, u⟩ <;> simp at h
  | cons e es ih =>
    intro s x u v h
    have hrun : run s (e :: es) =
        ((run (step s e).1 es).1, (step s e).2 ++ (run (step s e).1 es).2) := by
      rw [run]
    rw [hrun] at h
    rcases split_append_cons _ _ _ _ h with hchunk | ⟨u', rfl, hrest⟩
    · cases e with
      | sub y =>
        by_cases hc : conflictsAny y (s.inflight ++ s.queue) = true
        · simp [step, submitStep, hc] at hchunk
        · simp [step, submitStep, hc] at hchunk
      | comp y =>
        by_cases hy : y ∈ s.inflight
        · simp only [step, if_pos hy, doneStep] at hchunk
          rcases List.mem_cons.1 hchunk with h1 | h1
          · have : x = y := by injection h1
            exact Or.inr (this ▸ hy)
          rcases List.mem_cons.1 h1 with h2 | h2
          · exact absurd h2 (by simp)
          · obtain ⟨z, -, hzx⟩ := List.mem_map.1 h2
            exact absurd hzx (by simp)
        · simp [step, hy] at hchunk
    · rcases ih (step s e).1 x u' v hrest with h1 | h1
      · exact Or.inl (List.mem_append_right _ h1)
      · cases e with
        | sub y =>
          by_cases hc : conflictsAny y (s.inflight ++ s.queue) = true
          · simp only [step, submitStep, if_pos hc] at h1
            exact Or.inr h1
          · simp only [step, submitStep, if_neg hc] at h1
            rcases List.mem_append.1 h1 with h2 | h2
            · exact Or.inr h2
            · refine Or.inl (List.mem_append_left _ ?_)
              have : x = y := List.mem_singleton.1 h2
              simp [step, submitStep, hc, this]
        | comp y =>
          by_cases hy : y ∈ s.inflight
          · simp only [step, if_pos hy, doneStep] at h1
            rw [drain_fst] at h1
            rcases List.mem_append.1 h1 with h2 | h2
            · exact Or.inr ((List.erase_sublist y s.inflight).subset h2)
            · refine Or.inl (List.mem_append_left _ ?_)
              simp only [step, if_pos hy, doneStep]
              exact List.mem_cons_of_mem _ (List.mem_cons_of_mem _
                (List.mem_map.2 ⟨x, h2, rfl⟩))
          · simp only [step, if_neg hy] at h1
            exact Or.inr h1


/-! ## Pipeline lemmas: exclusivity of conflicting in-flight actions -/

theorem overlaps_false_symm (x y : Action) (h : overlaps x y = false) :
    overlaps y x = false := by
  cases hyx : overlaps y x
  · rfl
  · rw [overlaps_symm y x hyx] at h
    exact h

theorem drain_pairwise (qs : List Action) : ∀ (infl kept : List Action),
    List.Pairwise (fun x y => overlaps x y = false) infl →
    List.Pairwise (fun x y => overlaps x y = false) (drain infl kept qs).1 := by
  induction qs with
  | nil => intro infl kept h; simpa [drain] using h
  | cons q qs ih =>
    intro infl kept h
    rw [drain]
    by_cases hc : conflictsAny q (infl ++ kept) = true
    · rw [if_pos hc]
      exact ih infl (kept ++ [q]) h
    · rw [if_neg hc]
      refine ih (infl ++ [q]) kept ?_
      rw [List.pairwise_append]
      refine ⟨h, List.pairwise_singleton _ _, ?_⟩
      intro x hx y hy
      rw [List.mem_singleton] at hy
      rw [hy]
      have hq : overlaps q x = false :=
        (conflictsAny_eq_false_iff q (infl ++ kept)).1
          (Bool.not_eq_true _ ▸ hc) x (List.mem_append_left _ hx)
      exact overlaps_false_symm q x hq

theorem step_pairwise (s : CRState) (e : Ev)
    (h : List.Pairwise (fun x y => overlaps x y = false) s.inflight) :
    List.Pairwise (fun x y => overlaps x y = false) (step s e).1.inflight := by
  cases e with
  | sub x =>
    by_cases hc : conflictsAny x (s.inflight ++ s.queue) = true
    · simpa [step, submitStep, hc] using h
    · have hstep : step s (Ev.sub x) =
          ({ s with inflight := s.inflight ++ [x] }, [Out.bsub x]) := by
        simp [step, submitStep, hc]
      rw [hstep]
      show List.Pairwise _ (s.inflight ++ [x])
      rw [List.pairwise_append]
      refine ⟨h, List.pairwise_singleton _ _, ?_⟩
      intro y hy z hz
      rw [List.mem_singleton] at hz
      rw [hz]
      have hx : overlaps x y = false :=
        (conflictsAny_eq_false_iff x (s.inflight ++ s.queue)).1
          (Bool.not_eq_true _ ▸ hc) y (List.mem_append_left _ hy)
      exact overlaps_false_symm x y hx
  | comp x =>
    by_cases hx : x ∈ s.inflight
    · have hstep : step s (Ev.comp x) = doneStep s x := by
        simp [step, hx]
      rw [hstep]
      show List.Pairwise _ (drain (s.inflight.erase x) [] s.queue).1
      exact drain_pairwise s.queue (s.inflight.erase x) []
        (h.sublist (List.erase_sublist x s.inflight))
    · simpa [step, hx] using h

theorem run_pairwise (t : List Ev) : ∀ s : CRState,
    List.Pairwise (fun x y => overlaps x y = false) s.inflight →
    List.Pairwise (fun x y => overlaps x y = false) (run s t).1.inflight := by
  induction t with
  | nil => intro s h; simpa [run] using h
  | cons e es ih =>
    intro s h
    rw [run]
    exact ih (step s e).1 (step_pairwise s e h)

theorem run_inflight_exclusive (t : List Ev) (a b : Action)
    (hov : overlaps a b = true) (hne : a ≠ b) :
    ¬(a ∈ (run CRState.init t).1.inflight ∧
      b ∈ (run CRState.init t).1.inflight) := by
  rintro ⟨ha, hb⟩
  have hpw := run_pairwise t CRState.init (by simp [CRState.init])
  have hsymm : Symmetric (fun x y : Action => overlaps x y = false) :=
    fun x y hxy => overlaps_false_symm x y hxy
  have hfalse : overlaps a b = false := List.Pairwise.forall hsymm hpw ha hb hne
  rw [hfalse] at hov
  exact Bool.noConfusion hov


/-! ## Pipeline lemmas: a queued conflicting action stays blocked -/

theorem blocked_step (a b : Action) (hov : overlaps b a = true) (hne : a ≠ b)
    (s : CRState) (e : Ev)
    (hnd : (s.inflight ++ s.queue).Nodup)
    (hb : b ∈ s.queue)
    (hG : a ∈ s.inflight ∨ List.Sublist [a, b] s.queue)
    (hnotdone : ¬(e = Ev.comp a ∧ a ∈ s.inflight))
    (hfresh : ∀ x, e = Ev.sub x → x ∉ s.inflight ∧ x ∉ s.queue) :
    ((step s e).1.inflight ++ (step s e).1.queue).Nodup ∧
    b ∈ (step s e).1.queue ∧
    (a ∈ (step s e).1.inflight ∨ List.Sublist [a, b] (step s e).1.queue) ∧
    Out.bsub b ∉ (step s e).2 := by
  have hndi : s.inflight.Nodup := (List.nodup_append.1 hnd).1
  have hndq : s.queue.Nodup := (List.nodup_append.1 hnd).2.1
  have hdisj : s.inflight.Disjoint s.queue := (List.nodup_append.1 hnd).2.2
  cases e with
  | sub x =>
    obtain ⟨hx1, hx2⟩ := hfresh x rfl
    by_cases hc : conflictsAny x (s.inflight ++ s.queue) = true
    · have hstep : step s (Ev.sub x) =
          ({ s with queue := s.queue ++ [x] }, []) := by
        simp [step, submitStep, hc]
      rw [hstep]
      refine ⟨?_, List.mem_append_left _ hb, ?_, by simp⟩
      · show (s.inflight ++ (s.queue ++ [x])).Nodup
        rw [← List.append_assoc]
        rw [List.nodup_append]
        refine ⟨hnd, List.nodup_singleton x, ?_⟩
        intro y hy
        rw [List.mem_singleton]
        rintro rfl
        rcases List.mem_append.1 hy with h1 | h1
        · exact hx1 h1
        · exact hx2 h1
      · rcases hG with h1 | h1
        · exact Or.inl h1
        · exact Or.inr (h1.trans (List.sublist_append_left _ _))
    · have hstep : step s (Ev.sub x) =
          ({ s with inflight := s.inflight ++ [x] }, [Out.bsub x]) := by
        simp [step, submitStep, hc]
      rw [hstep]
      refine ⟨?_, hb, ?_, ?_⟩
      · show ((s.inflight ++ [x]) ++ s.queue).Nodup
        rw [List.append_assoc, List.singleton_append, List.nodup_middle]
        rw [List.nodup_cons]
        refine ⟨?_, hnd⟩
        intro hmem
        rcases List.mem_append.1 hmem with h1 | h1
        · exact hx1 h1
        · exact hx2 h1
      · rcases hG with h1 | h1
        · exact Or.inl (List.mem_append_left _ h1)
        · exact Or.inr h1
      · rw [List.mem_singleton]
        intro hcon
        have hxb : x = b := by
          injection hcon with h1
          exact h1.symm
        exact hx2 (hxb ▸ hb)
  | comp x =>
    by_cases hx : x ∈ s.inflight
    · have hxa : x ≠ a := by
        rintro rfl
        rcases hG with h1 | h1
        · exact hnotdone ⟨rfl, h1⟩
        · exact hdisj hx (h1.subset (List.mem_cons_self _ _))
      have hxb : x ≠ b := by
        rintro rfl
        exact hdisj hx hb
      have hstep : step s (Ev.comp x) = doneStep s x := by
        simp [step, hx]
      rw [hstep]
      have hbR : b ∉ (drain (s.inflight.erase x) [] s.queue).2.2 := by
        rcases hG with h1 | h1
        · have ha' : a ∈ s.inflight.erase x :=
            (List.mem_erase_of_ne (fun hc => hxa hc.symm)).2 h1
          exact drain_not_released_of_mem a b hov s.queue
            (s.inflight.erase x) [] (by simpa using ha')
        · obtain ⟨q1, q2, hqeq, hbq2⟩ := pair_sublist_decomp s.queue h1
          have hbq1 : b ∉ q1 := by
            intro hcon
            rw [hqeq, List.nodup_append] at hndq
            exact hndq.2.2 hcon (List.mem_cons_of_mem _ hbq2)
          rw [hqeq]
          exact drain_not_released_of_queued_before a b hov
            (fun hc => hne hc.symm) q1 q2 (s.inflight.erase x) [] hbq1
      have hqperm : List.Perm
          ((drain (s.inflight.erase x) [] s.queue).2.1 ++
            (drain (s.inflight.erase x) [] s.queue).2.2) s.queue := by
        have := drain_perm (s.inflight.erase x) [] s.queue
        simpa using this
      have hbK : b ∈ (drain (s.inflight.erase x) [] s.queue).2.1 := by
        have hbm : b ∈ (drain (s.inflight.erase x) [] s.queue).2.1 ++
            (drain (s.inflight.erase x) [] s.queue).2.2 :=
          hqperm.mem_iff.2 hb
        rcases List.mem_append.1 hbm with h1 | h1
        · exact h1
        · exact absurd h1 hbR
      have hknd : (drain (s.inflight.erase x) [] s.queue).2.1.Nodup :=
        ((drain_kept_sublist (s.inflight.erase x) [] s.queue).trans
          (by simp)).nodup hndq
      refine ⟨?_, hbK, ?_, ?_⟩
      · show ((drain (s.inflight.erase x) [] s.queue).1 ++
          (drain (s.inflight.erase x) [] s.queue).2.1).Nodup
        have hperm2 : List.Perm
            ((drain (s.inflight.erase x) [] s.queue).1 ++
              (drain (s.inflight.erase x) [] s.queue).2.1)
            (s.inflight.erase x ++ s.queue) := by
          rw [drain_fst, List.append_assoc]
          refine List.Perm.append_left _ ?_
          exact (List.perm_append_comm).trans hqperm
        refine hperm2.nodup_iff.2 ?_
        exact ((List.erase_sublist x s.inflight).append_right s.queue).nodup hnd
      · rcases hG with h1 | h1
        · refine Or.inl ?_
          show a ∈ (drain (s.inflight.erase x) [] s.queue).1
          rw [drain_fst]
          exact List.mem_append_left _
            ((List.mem_erase_of_ne (fun hc => hxa hc.symm)).2 h1)
        · have haq : a ∈ s.queue := h1.subset (List.mem_cons_self _ _)
          have ham : a ∈ (drain (s.inflight.erase x) [] s.queue).2.1 ++
              (drain (s.inflight.erase x) [] s.queue).2.2 :=
            hqperm.mem_iff.2 haq
          rcases List.mem_append.1 ham with h2 | h2
          · refine Or.inr ?_
            refine pair_sublist_of_sublist hne ?_ hndq h2 hbK h1
            exact (drain_kept_sublist (s.inflight.erase x) [] s.queue).trans
              (by simp)
          · refine Or.inl ?_
            show a ∈ (drain (s.inflight.erase x) [] s.queue).1
            rw [drain_fst]
            exact List.mem_append_right _ h2
      · show Out.bsub b ∉ Out.cb x :: Out.free x ::
          ((drain (s.inflight.erase x) [] s.queue).2.2.map Out.bsub)
        intro hcon
        rcases List.mem_cons.1 hcon with h1 | h1
        · exact absurd h1 (by simp)
        rcases List.mem_cons.1 h1 with h2 | h2
        · exact absurd h2 (by simp)
        · obtain ⟨z, hz, hzb⟩ := List.mem_map.1 h2
          have hzb' : z = b := by injection hzb
          exact hbR (hzb' ▸ hz)
    · have hstep : step s (Ev.comp x) = (s, []) := by
        simp [step, hx]
      rw [hstep]
      exact ⟨hnd, hb, hG, by simp⟩


theorem run_subs_mem_split (t : List Ev) (x : Action) (hx : x ∈ subsOf t) :
    x ∈ (run CRState.init t).1.inflight ∨
    x ∈ (run CRState.init t).1.queue ∨
    x ∈ cbListOf (run CRState.init t).2 := by
  have h := run_conservation t CRState.init
  have hinit : ((CRState.init.inflight : Multiset Action) + ↑CRState.init.queue +
      ↑(subsOf t)) = (↑(subsOf t) : Multiset Action) := by
    show (0 : Multiset Action) + 0 + ↑(subsOf t) = ↑(subsOf t)
    abel
  rw [hinit] at h
  have hmem : x ∈ ((run CRState.init t).1.inflight : Multiset Action) +
      ↑(run CRState.init t).1.queue + ↑(cbListOf (run CRState.init t).2) := by
    rw [h]
    exact Multiset.mem_coe.2 hx
  rcases Multiset.mem_add.1 hmem with h1 | h1
  · rcases Multiset.mem_add.1 h1 with h2 | h2
    · exact Or.inl (Multiset.mem_coe.1 h2)
    · exact Or.inr (Or.inl (Multiset.mem_coe.1 h2))
  · exact Or.inr (Or.inr (Multiset.mem_coe.1 h1))

theorem blocked_run (a b : Action) (hov : overlaps b a = true) (hne : a ≠ b) :
    ∀ (t : List Ev) (s : CRState),
      (s.inflight ++ s.queue).Nodup →
      b ∈ s.queue →
      (a ∈ s.inflight ∨ List.Sublist [a, b] s.queue) →
      (∀ u x v, t = u ++ Ev.sub x :: v →
        x ∉ (run s u).1.inflight ∧ x ∉ (run s u).1.queue) →
      ∀ u v, (run s t).2 = u ++ Out.bsub b :: v → Out.cb a ∈ u := by
  intro t
  induction t with
  | nil =>
    intro s _ _ _ _ u v h
    rw [run] at h
    rcases u with _ | ⟨o, u⟩ <;> simp at h
  | cons e es ih =>
    intro s hnd hb hG hfresh u v h
    have hrun : (run s (e :: es)).2 =
        (step s e).2 ++ (run (step s e).1 es).2 := by
      rw [run]
    rw [hrun] at h
    by_cases hdone : e = Ev.comp a ∧ a ∈ s.inflight
    · obtain ⟨rfl, ha⟩ := hdone
      have hstep : step s (Ev.comp a) = doneStep s a := by
        simp [step, ha]
      rw [hstep] at h
      have h' : Out.cb a :: (Out.free a ::
          ((drain (s.inflight.erase a) [] s.queue).2.2.map Out.bsub) ++
            (run (doneStep s a).1 es).2) = u ++ Out.bsub b :: v := by
        rw [← h]
        rfl
      exact mem_head_of_append_cons _ u v h' (by simp)
    · have hfresh1 : ∀ x, e = Ev.sub x → x ∉ s.inflight ∧ x ∉ s.queue := by
        intro x hx
        have hres := hfresh [] x es (by rw [hx, List.nil_append])
        rw [run] at hres
        exact hres
      obtain ⟨hnd', hb', hG', hnb⟩ :=
        blocked_step a b hov hne s e hnd hb hG hdone hfresh1
      rcases split_append_cons _ _ u v h with hchunk | ⟨u', rfl, hrest⟩
      · exact absurd hchunk hnb
      · have hfresh' : ∀ u2 x v2, es = u2 ++ Ev.sub x :: v2 →
            x ∉ (run (step s e).1 u2).1.inflight ∧
            x ∉ (run (step s e).1 u2).1.queue := by
          intro u2 x v2 heq
          have hres := hfresh (e :: u2) x v2 (by rw [heq, List.cons_append])
          have hstate : (run s (e :: u2)).1 = (run (step s e).1 u2).1 := by
            rw [run]
          rw [hstate] at hres
          exact hres
        have hfin := ih (step s e).1 hnd' hb' hG' hfresh' u' v hrest
        exact List.mem_append_right _ hfin


theorem nodup_mid_facts (l1 l2 l3 : List Action) (m x : Action)
    (h : (l1 ++ m :: (l2 ++ x :: l3)).Nodup) :
    x ∉ l1 ∧ x ≠ m ∧ x ∉ l2 := by
  obtain ⟨h1, hrest, hdisj⟩ := List.nodup_append.1 h
  obtain ⟨hm, h2⟩ := List.nodup_cons.1 hrest
  obtain ⟨h3, hx3, hd2⟩ := List.nodup_append.1 h2
  refine ⟨?_, ?_, ?_⟩
  · intro hx1
    exact hdisj hx1 (List.mem_cons_of_mem _
      (List.mem_append_right _ (List.mem_cons_self _ _)))
  · rintro rfl
    exact hm (List.mem_append_right _ (List.mem_cons_self _ _))
  · intro hx2
    exact hd2 hx2 (List.mem_cons_self _ _)

/-- C1: for two Actions `a` and `b` on the same file descriptor with
overlapping byte ranges, submitted in that order (each submitted once), the
pipeline guarantees: every forwarding of `b` to the Backend is strictly
preceded in the observable event sequence by `a`'s completion callback
(so the earlier Action's callback fires no later than the later Action's
submission to the Backend); consequently `a` is forwarded to the Backend
before `b` (FIFO release order for actions queued behind the same
conflicting range); and at no point are `a` and `b` both in flight, so
their completion callbacks are never processed concurrently. -/
theorem conflicting_actions_ordered (t1 t2 t3 : List Ev) (a b : Action)
    (hov : overlaps a b = true) (hne : a ≠ b)
    (hnd : (subsOf ((t1 ++ Ev.sub a :: t2) ++ Ev.sub b :: t3)).Nodup) :
    (∀ u v, (run CRState.init ((t1 ++ Ev.sub a :: t2) ++ Ev.sub b :: t3)).2 =
      u ++ Out.bsub b :: v → Out.cb a ∈ u) ∧
    (∀ u v, (run CRState.init ((t1 ++ Ev.sub a :: t2) ++ Ev.sub b :: t3)).2 =
      u ++ Out.bsub b :: v → Out.bsub a ∈ u) ∧
    (∀ tp ts, (t1 ++ Ev.sub a :: t2) ++ Ev.sub b :: t3 = tp ++ ts →
      ¬(a ∈ (run CRState.init tp).1.inflight ∧
        b ∈ (run CRState.init tp).1.inflight)) := by
  have hsubsT1 : subsOf (t1 ++ Ev.sub a :: t2) = subsOf t1 ++ a :: subsOf t2 := by
    rw [subsOf_append]
    rfl
  have hsubstr : subsOf ((t1 ++ Ev.sub a :: t2) ++ Ev.sub b :: t3) =
      subsOf (t1 ++ Ev.sub a :: t2) ++ b :: subsOf t3 := by
    rw [subsOf_append]
    rfl
  have haT1 : a ∈ subsOf (t1 ++ Ev.sub a :: t2) := by
    rw [hsubsT1]
    exact List.mem_append_right _ (List.mem_cons_self _ _)
  have hndT1b : b ∉ subsOf (t1 ++ Ev.sub a :: t2) ∧
      (subsOf (t1 ++ Ev.sub a :: t2)).Nodup := by
    rw [hsubstr] at hnd
    obtain ⟨h1, h2, hdisj⟩ := List.nodup_append.1 hnd
    exact ⟨fun hc => hdisj hc (List.mem_cons_self _ _), h1⟩
  have hout : (run CRState.init ((t1 ++ Ev.sub a :: t2) ++ Ev.sub b :: t3)).2 =
      (run CRState.init (t1 ++ Ev.sub a :: t2)).2 ++
        (run (run CRState.init (t1 ++ Ev.sub a :: t2)).1 (Ev.sub b :: t3)).2 := by
    rw [run_append]
  have hF1 : Out.bsub b ∉ (run CRState.init (t1 ++ Ev.sub a :: t2)).2 := by
    intro hc
    rcases bsub_mem_subs_or_queue (t1 ++ Ev.sub a :: t2) CRState.init b hc with
      h1 | h1
    · exact hndT1b.1 h1
    · simp [CRState.init] at h1
  have hmain : ∀ u v,
      (run CRState.init ((t1 ++ Ev.sub a :: t2) ++ Ev.sub b :: t3)).2 =
        u ++ Out.bsub b :: v → Out.cb a ∈ u := by
    by_cases hcb : Out.cb a ∈ (run CRState.init (t1 ++ Ev.sub a :: t2)).2
    · intro u v h
      rw [hout] at h
      rcases split_append_cons _ _ u v h with h1 | ⟨u', rfl, -⟩
      · exact absurd h1 hF1
      · exact List.mem_append_left _ hcb
    · have hstate : a ∈ (run CRState.init (t1 ++ Ev.sub a :: t2)).1.inflight ∨
          a ∈ (run CRState.init (t1 ++ Ev.sub a :: t2)).1.queue := by
        rcases run_subs_mem_split (t1 ++ Ev.sub a :: t2) a haT1 with h1 | h1 | h1
        · exact Or.inl h1
        · exact Or.inr h1
        · exact absurd ((cb_mem_cbListOf _ a).2 h1) hcb
      have hbstate1 : b ∉ (run CRState.init (t1 ++ Ev.sub a :: t2)).1.inflight := by
        intro hcmem
        exact hndT1b.1 (run_state_mem_subs _ b (Or.inl hcmem))
      have hbstate2 : b ∉ (run CRState.init (t1 ++ Ev.sub a :: t2)).1.queue := by
        intro hcmem
        exact hndT1b.1 (run_state_mem_subs _ b (Or.inr hcmem))
      have hcfl : conflictsAny b
          ((run CRState.init (t1 ++ Ev.sub a :: t2)).1.inflight ++
            (run CRState.init (t1 ++ Ev.sub a :: t2)).1.queue) = true := by
        rcases hstate with h1 | h1
        · exact conflictsAny_eq_true_of_mem b a _ (List.mem_append_left _ h1)
            (overlaps_symm a b hov)
        · exact conflictsAny_eq_true_of_mem b a _ (List.mem_append_right _ h1)
            (overlaps_symm a b hov)
      have hstepb : step (run CRState.init (t1 ++ Ev.sub a :: t2)).1 (Ev.sub b) =
          ({ (run CRState.init (t1 ++ Ev.sub a :: t2)).1 with
              queue := (run CRState.init (t1 ++ Ev.sub a :: t2)).1.queue ++ [b] },
            []) := by
        simp [step, submitStep, hcfl]
      have hnds2 : ((run CRState.init (t1 ++ Ev.sub a :: t2)).1.inflight ++
          (run CRState.init (t1 ++ Ev.sub a :: t2)).1.queue).Nodup :=
        (List.sublist_append_left _ _).nodup (run_nodup _ hndT1b.2)
      have hnds3 : (({ (run CRState.init (t1 ++ Ev.sub a :: t2)).1 with
          queue := (run CRState.init (t1 ++ Ev.sub a :: t2)).1.queue ++ [b] } :
            CRState).inflight ++
          ({ (run CRState.init (t1 ++ Ev.sub a :: t2)).1 with
          queue := (run CRState.init (t1 ++ Ev.sub a :: t2)).1.queue ++ [b] } :
            CRState).queue).Nodup := by
        show ((run CRState.init (t1 ++ Ev.sub a :: t2)).1.inflight ++
          ((run CRState.init (t1 ++ Ev.sub a :: t2)).1.queue ++ [b])).Nodup
        rw [← List.append_assoc, List.nodup_append]
        refine ⟨hnds2, List.nodup_singleton _, ?_⟩
        intro y hy
        rw [List.mem_singleton]
        rintro rfl
        rcases List.mem_append.1 hy with h1 | h1
        · exact hbstate1 h1
        · exact hbstate2 h1
      have hbq3 : b ∈ ({ (run CRState.init (t1 ++ Ev.sub a :: t2)).1 with
          queue := (run CRState.init (t1 ++ Ev.sub a :: t2)).1.queue ++ [b] } :
            CRState).queue :=
        List.mem_append_right _ (List.mem_singleton.2 rfl)
      have hG3 : a ∈ ({ (run CRState.init (t1 ++ Ev.sub a :: t2)).1 with
          queue := (run CRState.init (t1 ++ Ev.sub a :: t2)).1.queue ++ [b] } :
            CRState).inflight ∨
          List.Sublist [a, b]
            ({ (run CRState.init (t1 ++ Ev.sub a :: t2)).1 with
              queue := (run CRState.init (t1 ++ Ev.sub a :: t2)).1.queue ++ [b] } :
                CRState).queue := by
        rcases hstate with h1 | h1
        · exact Or.inl h1
        · refine Or.inr ?_
          show List.Sublist ([a] ++ [b])
            ((run CRState.init (t1 ++ Ev.sub a :: t2)).1.queue ++ [b])
          exact List.Sublist.append (List.singleton_sublist.2 h1)
            (List.Sublist.refl _)
      have hfresh3 : ∀ u x v, t3 = u ++ Ev.sub x :: v →
          x ∉ (run ({ (run CRState.init (t1 ++ Ev.sub a :: t2)).1 with
              queue := (run CRState.init (t1 ++ Ev.sub a :: t2)).1.queue ++ [b] } :
                CRState) u).1.inflight ∧
          x ∉ (run ({ (run CRState.init (t1 ++ Ev.sub a :: t2)).1 with
              queue := (run CRState.init (t1 ++ Ev.sub a :: t2)).1.queue ++ [b] } :
                CRState) u).1.queue := by
        intro u x v heq
        have hsubt3 : subsOf t3 = subsOf u ++ x :: subsOf v := by
          rw [heq, subsOf_append]
          rfl
        have hfacts := nodup_mid_facts (subsOf (t1 ++ Ev.sub a :: t2))
          (subsOf u) (subsOf v) b x (by
            rw [hsubstr, hsubt3] at hnd
            exact hnd)
        have hstateu : (run ({ (run CRState.init (t1 ++ Ev.sub a :: t2)).1 with
            queue := (run CRState.init (t1 ++ Ev.sub a :: t2)).1.queue ++ [b] } :
              CRState) u).1 =
            (run CRState.init ((t1 ++ Ev.sub a :: t2) ++ Ev.sub b :: u)).1 := by
          rw [run_append (t1 ++ Ev.sub a :: t2) CRState.init (Ev.sub b :: u)]
          show _ = (run (run CRState.init (t1 ++ Ev.sub a :: t2)).1
            (Ev.sub b :: u)).1
          rw [run, hstepb]
        rw [hstateu]
        have hmem : ∀ hx : x ∈ (run CRState.init
            ((t1 ++ Ev.sub a :: t2) ++ Ev.sub b :: u)).1.inflight ∨
            x ∈ (run CRState.init
              ((t1 ++ Ev.sub a :: t2) ++ Ev.sub b :: u)).1.queue, False := by
          intro hx
          have hsub := run_state_mem_subs ((t1 ++ Ev.sub a :: t2) ++ Ev.sub b :: u)
            x hx
          rw [subsOf_append] at hsub
          rcases List.mem_append.1 hsub with h1 | h1
          · exact hfacts.1 h1
          · rcases List.mem_cons.1 h1 with h2 | h2
            · exact hfacts.2.1 h2
            · exact hfacts.2.2 h2
        exact ⟨fun hc => hmem (Or.inl hc), fun hc => hmem (Or.inr hc)⟩
      have hblocked := blocked_run a b (overlaps_symm a b hov) hne t3 _
        hnds3 hbq3 hG3 hfresh3
      intro u v h
      rw [hout] at h
      have hout2 : (run (run CRState.init (t1 ++ Ev.sub a :: t2)).1
          (Ev.sub b :: t3)).2 =
          (run ({ (run CRState.init (t1 ++ Ev.sub a :: t2)).1 with
            queue := (run CRState.init (t1 ++ Ev.sub a :: t2)).1.queue ++ [b] } :
              CRState) t3).2 := by
        rw [run, hstepb]
        rfl
      rw [hout2] at h
      rcases split_append_cons _ _ u v h with h1 | ⟨u', rfl, hrest⟩
      · exact absurd h1 hF1
      · exact List.mem_append_right _ (hblocked u' v hrest)
  refine ⟨hmain, ?_, ?_⟩
  · intro u v h
    have hcbu := hmain u v h
    obtain ⟨u1, u2, rfl⟩ := List.append_of_mem hcbu
    have hsplit : (run CRState.init ((t1 ++ Ev.sub a :: t2) ++ Ev.sub b :: t3)).2 =
        u1 ++ Out.cb a :: (u2 ++ Out.bsub b :: v) := by
      rw [h, List.append_assoc, List.cons_append]
    rcases cb_preceded_by_bsub ((t1 ++ Ev.sub a :: t2) ++ Ev.sub b :: t3)
      CRState.init a u1 _ hsplit with h1 | h1
    · exact List.mem_append_left _ h1
    · simp [CRState.init] at h1
  · intro tp ts heq
    exact run_inflight_exclusive tp a b hov hne


/-- Witness for C1: a write and an overlapping read on fd 0, submitted in
that order; the read reaches the Backend only after the write's callback,
and the two are never simultaneously in flight. -/
theorem conflicting_actions_ordered_witness :
    Out.cb ⟨0, 0, 4096, true, 0⟩ ∈
      ([Out.bsub ⟨0, 0, 4096, true, 0⟩, Out.cb ⟨0, 0, 4096, true, 0⟩,
        Out.free ⟨0, 0, 4096, true, 0⟩] : List Out) ∧
    Out.bsub ⟨0, 0, 4096, true, 0⟩ ∈
      ([Out.bsub ⟨0, 0, 4096, true, 0⟩, Out.cb ⟨0, 0, 4096, true, 0⟩,
        Out.free ⟨0, 0, 4096, true, 0⟩] : List Out) ∧
    ¬((⟨0, 0, 4096, true, 0⟩ : Action) ∈
        (run CRState.init [Ev.sub ⟨0, 0, 4096, true, 0⟩,
          Ev.sub ⟨0, 0, 4096, false, 1⟩]).1.inflight ∧
      (⟨0, 0, 4096, false, 1⟩ : Action) ∈
        (run CRState.init [Ev.sub ⟨0, 0, 4096, true, 0⟩,
          Ev.sub ⟨0, 0, 4096, false, 1⟩]).1.inflight) := by
  have h := conflicting_actions_ordered [] [] [Ev.comp ⟨0, 0, 4096, true, 0⟩,
      Ev.comp ⟨0, 0, 4096, false, 1⟩] ⟨0, 0, 4096, true, 0⟩
    ⟨0, 0, 4096, false, 1⟩ (by decide) (by decide) (by decide)
  refine ⟨?_, ?_, ?_⟩
  · exact h.1 [Out.bsub ⟨0, 0, 4096, true, 0⟩, Out.cb ⟨0, 0, 4096, true, 0⟩,
      Out.free ⟨0, 0, 4096, true, 0⟩] [Out.cb ⟨0, 0, 4096, false, 1⟩,
      Out.free ⟨0, 0, 4096, false, 1⟩] (by decide)
  · exact h.2.1 [Out.bsub ⟨0, 0, 4096, true, 0⟩, Out.cb ⟨0, 0, 4096, true, 0⟩,
      Out.free ⟨0, 0, 4096, true, 0⟩] [Out.cb ⟨0, 0, 4096, false, 1⟩,
      Out.free ⟨0, 0, 4096, false, 1⟩] (by decide)
  · exact h.2.2 [Ev.sub ⟨0, 0, 4096, true, 0⟩, Ev.sub ⟨0, 0, 4096, false, 1⟩]
      [Ev.comp ⟨0, 0, 4096, true, 0⟩, Ev.comp ⟨0, 0, 4096, false, 1⟩] (by decide)


/-! ## Pipeline lemmas: driving the pipeline to quiescence -/

theorem drain_lengths (infl kept qs : List Action) :
    (drain infl kept qs).2.1.length + (drain infl kept qs).2.2.length =
      kept.length + qs.length := by
  have h := (drain_perm infl kept qs).length_eq
  rw [List.length_append, List.length_append] at h
  exact h

theorem doneStep_size (s : CRState) (x : Action) (hx : x ∈ s.inflight) :
    stateSize (doneStep s x).1 + 1 = stateSize s := by
  show (drain (s.inflight.erase x) [] s.queue).1.length +
    (drain (s.inflight.erase x) [] s.queue).2.1.length + 1 =
    s.inflight.length + s.queue.length
  rw [drain_fst, List.length_append]
  have h1 := drain_lengths (s.inflight.erase x) [] s.queue
  have h2 : (s.inflight.erase x).length = s.inflight.length - 1 :=
    List.length_erase_of_mem hx
  have h3 : 0 < s.inflight.length := List.length_pos_of_mem hx
  simp only [List.length_nil] at h1
  omega

theorem doneStep_nodup (s : CRState) (x : Action)
    (hnd : (s.inflight ++ s.queue).Nodup) :
    ((doneStep s x).1.inflight ++ (doneStep s x).1.queue).Nodup := by
  show ((drain (s.inflight.erase x) [] s.queue).1 ++
    (drain (s.inflight.erase x) [] s.queue).2.1).Nodup
  have hqperm : List.Perm
      ((drain (s.inflight.erase x) [] s.queue).2.1 ++
        (drain (s.inflight.erase x) [] s.queue).2.2) s.queue := by
    have := drain_perm (s.inflight.erase x) [] s.queue
    simpa using this
  have hperm2 : List.Perm
      ((drain (s.inflight.erase x) [] s.queue).1 ++
        (drain (s.inflight.erase x) [] s.queue).2.1)
      (s.inflight.erase x ++ s.queue) := by
    rw [drain_fst, List.append_assoc]
    refine List.Perm.append_left _ ?_
    exact (List.perm_append_comm).trans hqperm
  refine hperm2.nodup_iff.2 ?_
  exact ((List.erase_sublist x s.inflight).append_right s.queue).nodup hnd

theorem doneStep_nei (s : CRState) (x : Action) :
    (doneStep s x).1.queue ≠ [] → (doneStep s x).1.inflight ≠ [] :=
  drain_queue_nonempty s.queue (s.inflight.erase x)

theorem doneStep_state_perm (s : CRState) (x : Action) :
    List.Perm ((doneStep s x).1.inflight ++ (doneStep s x).1.queue)
      (s.inflight.erase x ++ s.queue) := by
  show List.Perm ((drain (s.inflight.erase x) [] s.queue).1 ++
    (drain (s.inflight.erase x) [] s.queue).2.1) _
  have hqperm : List.Perm
      ((drain (s.inflight.erase x) [] s.queue).2.1 ++
        (drain (s.inflight.erase x) [] s.queue).2.2) s.queue := by
    have := drain_perm (s.inflight.erase x) [] s.queue
    simpa using this
  rw [drain_fst, List.append_assoc]
  refine List.Perm.append_left _ ?_
  exact (List.perm_append_comm).trans hqperm

theorem drainAll_untouched : ∀ (fuel : Nat) (s : CRState) (x : Action),
    x ∉ s.inflight → x ∉ s.queue →
    ∀ o ∈ drainAllFuel fuel s, touches o x = false := by
  intro fuel
  induction fuel with
  | zero => intro s x _ _ o ho; simp [drainAllFuel] at ho
  | succ fuel ih =>
    intro s x hxi hxq o ho
    rw [drainAllFuel] at ho
    rcases hinfl : s.inflight with _ | ⟨y, rest⟩
    · rw [hinfl] at ho
      simp at ho
    · rw [hinfl] at ho
      have hyin : y ∈ s.inflight := hinfl ▸ List.mem_cons_self _ _
      rcases List.mem_append.1 ho with hchunk | hrest
      · rcases List.mem_cons.1 hchunk with h1 | h1
        · subst h1
          have hxy : y ≠ x := fun hc => hxi (hc ▸ hyin)
          simp [touches, Out.actOf, hxy]
        · rcases List.mem_cons.1 h1 with h2 | h2
          · subst h2
            have hxy : y ≠ x := fun hc => hxi (hc ▸ hyin)
            simp [touches, Out.actOf, hxy]
          · obtain ⟨z, hz, rfl⟩ := List.mem_map.1 h2
            have hzq : z ∈ s.queue :=
              (drain_rel_sublist (s.inflight.erase y) [] s.queue).subset hz
            have hzx : z ≠ x := fun hc => hxq (hc ▸ hzq)
            simp [touches, Out.actOf, hzx]
      · refine ih (doneStep s y).1 x ?_ ?_ o hrest
        · intro hc
          have hmem : x ∈ s.inflight.erase y ++
              (drain (s.inflight.erase y) [] s.queue).2.2 := by
            rw [← drain_fst]
            exact hc
          rcases List.mem_append.1 hmem with h1 | h1
          · exact hxi ((List.erase_sublist y s.inflight).subset h1)
          · exact hxq ((drain_rel_sublist (s.inflight.erase y) []
              s.queue).subset h1)
        · intro hc
          exact hxq ((drain_kept_sublist (s.inflight.erase y) [] s.queue).trans
            (by simp) |>.subset hc)

theorem drainAll_emits : ∀ (fuel : Nat) (s : CRState) (x : Action),
    stateSize s ≤ fuel →
    (s.queue ≠ [] → s.inflight ≠ []) →
    (s.inflight ++ s.queue).Nodup →
    x ∈ s.inflight ++ s.queue →
    ∃ u v, drainAllFuel fuel s = u ++ Out.cb x :: Out.free x :: v ∧
      Out.cb x ∉ u ∧ Out.free x ∉ u ∧ (∀ o ∈ v, touches o x = false) := by
  intro fuel
  induction fuel with
  | zero =>
    intro s x hsize hnei hnd hx
    rcases hinfl : s.inflight with _ | ⟨y, rest⟩
    · have hq : s.queue = [] := by
        by_contra hq
        exact (hnei hq) hinfl
      rw [hinfl, hq] at hx
      simp at hx
    · exfalso
      have : stateSize s ≥ 1 := by
        show 1 ≤ s.inflight.length + s.queue.length
        rw [hinfl]
        simp
        omega
      omega
  | succ fuel ih =>
    intro s x hsize hnei hnd hx
    rcases hinfl : s.inflight with _ | ⟨y, rest⟩
    · have hq : s.queue = [] := by
        by_contra hq
        exact (hnei hq) hinfl
      rw [hinfl, hq] at hx
      simp at hx
    · have hyin : y ∈ s.inflight := hinfl ▸ List.mem_cons_self _ _
      have hdAF : drainAllFuel (fuel + 1) s =
          (doneStep s y).2 ++ drainAllFuel fuel (doneStep s y).1 := by
        rw [drainAllFuel, hinfl]
      have hsize' : stateSize (doneStep s y).1 ≤ fuel := by
        have := doneStep_size s y hyin
        omega
      have hnei' := doneStep_nei s y
      have hnd' := doneStep_nodup s y hnd
      have hperm := doneStep_state_perm s y
      by_cases hxy : x = y
      · subst hxy
        refine ⟨[], (drain (s.inflight.erase x) [] s.queue).2.2.map Out.bsub ++
          drainAllFuel fuel (doneStep s x).1, ?_, by simp, by simp, ?_⟩
        · rw [hdAF]
          show (Out.cb x :: Out.free x ::
            (drain (s.inflight.erase x) [] s.queue).2.2.map Out.bsub) ++
              drainAllFuel fuel (doneStep s x).1 = _
          simp
        · intro o ho
          have hndi : s.inflight.Nodup := (List.nodup_append.1 hnd).1
          have hdisj : s.inflight.Disjoint s.queue := (List.nodup_append.1 hnd).2.2
          have hxq : x ∉ s.queue := fun hc => hdisj hyin hc
          rcases List.mem_append.1 ho with h1 | h1
          · obtain ⟨z, hz, rfl⟩ := List.mem_map.1 h1
            have hzq : z ∈ s.queue :=
              (drain_rel_sublist (s.inflight.erase x) [] s.queue).subset hz
            have hzx : z ≠ x := fun hc => hxq (hc ▸ hzq)
            simp [touches, Out.actOf, hzx]
          · refine drainAll_untouched fuel (doneStep s x).1 x ?_ ?_ o h1
            · intro hc
              have hmem : x ∈ s.inflight.erase x ++
                  (drain (s.inflight.erase x) [] s.queue).2.2 := by
                rw [← drain_fst]
                exact hc
              rcases List.mem_append.1 hmem with h2 | h2
              · exact hndi.not_mem_erase h2
              · exact hxq ((drain_rel_sublist (s.inflight.erase x) []
                  s.queue).subset h2)
            · intro hc
              exact hxq ((drain_kept_sublist (s.inflight.erase x) []
                s.queue).trans (by simp) |>.subset hc)
      · have hx' : x ∈ (doneStep s y).1.inflight ++ (doneStep s y).1.queue := by
          refine hperm.mem_iff.2 ?_
          rcases List.mem_append.1 hx with h1 | h1
          · exact List.mem_append_left _ ((List.mem_erase_of_ne hxy).2 h1)
          · exact List.mem_append_right _ h1
        obtain ⟨u, v, heq, hcbu, hfreeu, hv⟩ :=
          ih (doneStep s y).1 x hsize' hnei' hnd' hx'
        refine ⟨(doneStep s y).2 ++ u, v, ?_, ?_, ?_, hv⟩
        · rw [hdAF, heq, List.append_assoc]
        · intro hc
          rcases List.mem_append.1 hc with h1 | h1
          · revert h1
            show Out.cb x ∉ Out.cb y :: Out.free y ::
              (drain (s.inflight.erase y) [] s.queue).2.2.map Out.bsub
            intro h1
            rcases List.mem_cons.1 h1 with h2 | h2
            · have : x = y := by injection h2
              exact hxy this
            rcases List.mem_cons.1 h2 with h3 | h3
            · exact absurd h3 (by simp)
            · obtain ⟨z, -, hz⟩ := List.mem_map.1 h3
              exact absurd hz (by simp)
          · exact hcbu h1
        · intro hc
          rcases List.mem_append.1 hc with h1 | h1
          · revert h1
            show Out.free x ∉ Out.cb y :: Out.free y ::
              (drain (s.inflight.erase y) [] s.queue).2.2.map Out.bsub
            intro h1
            rcases List.mem_cons.1 h1 with h2 | h2
            · exact absurd h2 (by simp)
            rcases List.mem_cons.1 h2 with h3 | h3
            · have : x = y := by injection h3
              exact hxy this
            · obtain ⟨z, -, hz⟩ := List.mem_map.1 h3
              exact absurd hz (by simp)
          · exact hfreeu h1


theorem step_nei (s : CRState) (e : Ev)
    (h : s.queue ≠ [] → s.inflight ≠ []) :
    (step s e).1.queue ≠ [] → (step s e).1.inflight ≠ [] := by
  cases e with
  | sub x =>
    by_cases hc : conflictsAny x (s.inflight ++ s.queue) = true
    · have hstep : step s (Ev.sub x) =
          ({ s with queue := s.queue ++ [x] }, []) := by
        simp [step, submitStep, hc]
      rw [hstep]
      intro _
      show s.inflight ≠ []
      intro hinfl
      have hq : s.queue = [] := by
        by_contra hq
        exact (h hq) hinfl
      rw [hinfl, hq] at hc
      simp [conflictsAny] at hc
    · have hstep : step s (Ev.sub x) =
          ({ s with inflight := s.inflight ++ [x] }, [Out.bsub x]) := by
        simp [step, submitStep, hc]
      rw [hstep]
      intro _
      show s.inflight ++ [x] ≠ []
      simp
  | comp x =>
    by_cases hx : x ∈ s.inflight
    · have hstep : step s (Ev.comp x) = doneStep s x := by
        simp [step, hx]
      rw [hstep]
      exact doneStep_nei s x
    · have hstep : step s (Ev.comp x) = (s, []) := by
        simp [step, hx]
      rw [hstep]
      exact h

theorem run_nei (t : List Ev) : ∀ s : CRState,
    (s.queue ≠ [] → s.inflight ≠ []) →
    ((run s t).1.queue ≠ [] → (run s t).1.inflight ≠ []) := by
  induction t with
  | nil => intro s h; rw [run]; exact h
  | cons e es ih =>
    intro s h
    rw [run]
    exact ih (step s e).1 (step_nei s e h)

theorem run_subs_bsub_only : ∀ (as : List Action) (s : CRState),
    ∀ o ∈ (run s (as.map Ev.sub)).2, ∃ y, o = Out.bsub y := by
  intro as
  induction as with
  | nil => intro s o ho; rw [List.map_nil, run] at ho; simp at ho
  | cons a as ih =>
    intro s o ho
    rw [List.map_cons, run] at ho
    rcases List.mem_append.1 ho with hchunk | hrest
    · by_cases hc : conflictsAny a (s.inflight ++ s.queue) = true
      · simp [step, submitStep, hc] at hchunk
      · simp [step, submitStep, hc] at hchunk
        exact ⟨a, hchunk⟩
    · exact ih (step s (Ev.sub a)).1 o hrest

theorem run_subs_state : ∀ (as : List Action) (s : CRState),
    List.Perm
      ((run s (as.map Ev.sub)).1.inflight ++ (run s (as.map Ev.sub)).1.queue)
      ((s.inflight ++ s.queue) ++ as) := by
  intro as
  induction as with
  | nil => intro s; rw [List.map_nil, run]; simp
  | cons a as ih =>
    intro s
    rw [List.map_cons, run]
    show List.Perm ((run (step s (Ev.sub a)).1 (as.map Ev.sub)).1.inflight ++
      (run (step s (Ev.sub a)).1 (as.map Ev.sub)).1.queue) _
    refine (ih (step s (Ev.sub a)).1).trans ?_
    have hstate : List.Perm
        ((step s (Ev.sub a)).1.inflight ++ (step s (Ev.sub a)).1.queue)
        ((s.inflight ++ s.queue) ++ [a]) := by
      by_cases hc : conflictsAny a (s.inflight ++ s.queue) = true
      · have hstep : step s (Ev.sub a) =
            ({ s with queue := s.queue ++ [a] }, []) := by
          simp [step, submitStep, hc]
        rw [hstep]
        show List.Perm (s.inflight ++ (s.queue ++ [a])) _
        rw [← List.append_assoc]
      · have hstep : step s (Ev.sub a) =
            ({ s with inflight := s.inflight ++ [a] }, [Out.bsub a]) := by
          simp [step, submitStep, hc]
        rw [hstep]
        show List.Perm ((s.inflight ++ [a]) ++ s.queue) _
        have h1 : List.Perm ((s.inflight ++ [a]) ++ s.queue)
            (a :: (s.inflight ++ s.queue)) := by
          rw [List.append_assoc, List.singleton_append]
          exact List.perm_middle
        have h2 : List.Perm ((s.inflight ++ s.queue) ++ [a])
            (a :: (s.inflight ++ s.queue)) := by
          have hm := @List.perm_middle Action a (s.inflight ++ s.queue) []
          simpa using hm
        exact h1.trans h2.symm
    refine (hstate.append_right as).trans ?_
    rw [List.append_assoc, List.singleton_append]


/-- C2: for every `submit_read`/`submit_write` call (one Action per call,
distinct allocations), the caller's `on_io_complete` callback is invoked
exactly once, the Action is deallocated immediately after the callback
(the `free` event directly follows the `cb` event), and no pipeline stage
touches the Action afterwards (no later event refers to it). -/
theorem submit_exactly_once (as : List Action) (a : Action)
    (hnd : as.Nodup) (ha : a ∈ as) :
    (runAll as).count (Out.cb a) = 1 ∧
    (runAll as).count (Out.free a) = 1 ∧
    ∃ u v, runAll as = u ++ Out.cb a :: Out.free a :: v ∧
      Out.cb a ∉ u ∧ Out.free a ∉ u ∧ ∀ o ∈ v, touches o a = false := by
  have hperm := run_subs_state as CRState.init
  have hperm' : List.Perm
      ((run CRState.init (as.map Ev.sub)).1.inflight ++
        (run CRState.init (as.map Ev.sub)).1.queue) as := by
    simpa [CRState.init] using hperm
  have hnd1 : ((run CRState.init (as.map Ev.sub)).1.inflight ++
      (run CRState.init (as.map Ev.sub)).1.queue).Nodup :=
    hperm'.nodup_iff.2 hnd
  have ha1 : a ∈ (run CRState.init (as.map Ev.sub)).1.inflight ++
      (run CRState.init (as.map Ev.sub)).1.queue :=
    hperm'.mem_iff.2 ha
  have hnei1 : ((run CRState.init (as.map Ev.sub)).1.queue ≠ [] →
      (run CRState.init (as.map Ev.sub)).1.inflight ≠ []) :=
    run_nei (as.map Ev.sub) CRState.init (fun h => absurd rfl h)
  obtain ⟨u, v, heq, hcbu, hfreeu, hv⟩ := drainAll_emits
    (stateSize (run CRState.init (as.map Ev.sub)).1)
    (run CRState.init (as.map Ev.sub)).1 a (Nat.le_refl _) hnei1 hnd1 ha1
  have hbsub1 := run_subs_bsub_only as CRState.init
  have hcbout1 : Out.cb a ∉ (run CRState.init (as.map Ev.sub)).2 := by
    intro hc
    obtain ⟨y, hy⟩ := hbsub1 _ hc
    exact absurd hy (by simp)
  have hfreeout1 : Out.free a ∉ (run CRState.init (as.map Ev.sub)).2 := by
    intro hc
    obtain ⟨y, hy⟩ := hbsub1 _ hc
    exact absurd hy (by simp)
  have hrunAll : runAll as = (run CRState.init (as.map Ev.sub)).2 ++
      drainAllFuel (stateSize (run CRState.init (as.map Ev.sub)).1)
        (run CRState.init (as.map Ev.sub)).1 := rfl
  have hfull : runAll as = ((run CRState.init (as.map Ev.sub)).2 ++ u) ++
      Out.cb a :: Out.free a :: v := by
    rw [hrunAll, heq, List.append_assoc]
  have hcbnot : Out.cb a ∉ (run CRState.init (as.map Ev.sub)).2 ++ u := by
    intro hc
    rcases List.mem_append.1 hc with h1 | h1
    · exact hcbout1 h1
    · exact hcbu h1
  have hfreenot : Out.free a ∉ (run CRState.init (as.map Ev.sub)).2 ++ u := by
    intro hc
    rcases List.mem_append.1 hc with h1 | h1
    · exact hfreeout1 h1
    · exact hfreeu h1
  have hcbv : Out.cb a ∉ v := by
    intro hc
    have := hv _ hc
    simp [touches, Out.actOf] at this
  have hfreev : Out.free a ∉ v := by
    intro hc
    have := hv _ hc
    simp [touches, Out.actOf] at this
  refine ⟨?_, ?_, (run CRState.init (as.map Ev.sub)).2 ++ u, v, hfull,
    hcbnot, hfreenot, hv⟩
  · rw [hfull, List.count_append, List.count_eq_zero.2 hcbnot, Nat.zero_add,
      List.count_cons_self, List.count_cons_of_ne (by simp),
      List.count_eq_zero.2 hcbv]
  · rw [hfull, List.count_append, List.count_eq_zero.2 hfreenot, Nat.zero_add,
      List.count_cons_of_ne (by simp), List.count_cons_self,
      List.count_eq_zero.2 hfreev]

/-- Witness for C2: three submissions, one of them conflicting, each gets
exactly one callback and one deallocation. -/
theorem submit_exactly_once_witness :
    (runAll [⟨3, 0, 4096, true, 0⟩, ⟨3, 0, 4096, false, 1⟩,
      ⟨3, 8192, 4096, false, 2⟩]).count
        (Out.cb ⟨3, 0, 4096, false, 1⟩) = 1 ∧
    (runAll [⟨3, 0, 4096, true, 0⟩, ⟨3, 0, 4096, false, 1⟩,
      ⟨3, 8192, 4096, false, 2⟩]).count
        (Out.free ⟨3, 0, 4096, false, 1⟩) = 1 :=
  ⟨(submit_exactly_once [⟨3, 0, 4096, true, 0⟩, ⟨3, 0, 4096, false, 1⟩,
      ⟨3, 8192, 4096, false, 2⟩] ⟨3, 0, 4096, false, 1⟩ (by decide)
      (by decide)).1,
   (submit_exactly_once [⟨3, 0, 4096, true, 0⟩, ⟨3, 0, 4096, false, 1⟩,
      ⟨3, 8192, 4096, false, 2⟩] ⟨3, 0, 4096, false, 1⟩ (by decide)
      (by decide)).2.1⟩

end Disk